import Mathlib

/-!
# Verification of the `persist-cache` core

A shallow embedding of the core of the `persist-cache` repository
(`src/persist_cache/serialization.py`, `helpers.py`, `caching.py`,
`persist_cache.py`) and proofs about it.

Modelling conventions:

* Python strings are modelled as lists of Unicode code points (`List Nat`);
  `bytes`/`bytearray` payloads are lists of byte values.  The `latin1`
  decoding used by the source maps byte `i` to code point `i`, so it is the
  identity embedding on the payload list.
* Python `dict`s preserve insertion order; they are modelled as ordered
  association lists.  Assigning to an existing key keeps its position,
  assigning a fresh key appends it, exactly as in CPython.
* Python `float`s are modelled by their 64-bit patterns (an opaque `Nat`);
  the codec never inspects a float, it only passes it through.
* The external `msgspec.msgpack` encoder/decoder pair is not code of this
  repository; it faithfully round-trips every directly-msgpackable value,
  so the wire blob is modelled by the directly-msgpackable value itself
  (see `msgpackable` for the values the encoder accepts).
* `pickle.dumps`/`pickle.loads` are external as well; they are modelled by
  a concrete injective serializer `pdump` into `List Nat` together with a
  parser that is proved to be its left inverse, which is the contract the
  source relies on.  Arbitrary picklable Python objects outside the other
  kinds are the `PyVal.obj` constructor.
* `xxhash.xxh3_128_hexdigest` is an external hash; the derived cache key
  (digest plus length suffix) is modelled as an injective function of the
  serialized payload, i.e. by the serialized payload itself.  Hash
  collisions are abstracted away.
-/

set_option linter.unusedVariables false

mutual
/-- The model of Python values handled by the codec in
`src/persist_cache/serialization.py`: the directly-msgpackable kinds
(`str`, `int`, `list`, `dict`, `bool`, `float`, `None`) plus the six
escaped kinds (`tuple`, `set`, `frozenset`, `bytes`, `bytearray`, and
arbitrary picklable objects, `obj`).  `set`/`frozenset` are carried in
their iteration order. -/
inductive PyVal : Type where
  | str : List Nat → PyVal
  | int : Int → PyVal
  | float : Nat → PyVal
  | bool : Bool → PyVal
  | none : PyVal
  | list : PyList → PyVal
  | dict : PyDict → PyVal
  | tuple : PyList → PyVal
  | set : PyList → PyVal
  | frozenset : PyList → PyVal
  | bytes : List Nat → PyVal
  | bytearray : List Nat → PyVal
  | obj : Nat → PyVal
  deriving DecidableEq, Repr

inductive PyList : Type where
  | nil : PyList
  | cons : PyVal → PyList → PyList
  deriving DecidableEq, Repr

inductive PyDict : Type where
  | dnil : PyDict
  | dcons : PyVal → PyVal → PyDict → PyDict
  deriving DecidableEq, Repr
end

/-- Convert a Lean list of values into the embedded Python list spine. -/
def PyList.ofList : List PyVal → PyList
  | [] => .nil
  | v :: rest => .cons v (PyList.ofList rest)

/-- Convert the embedded Python list spine back into a Lean list. -/
def PyList.toList : PyList → List PyVal
  | .nil => []
  | .cons v rest => v :: PyList.toList rest

/-- `SIGNATURE_SEPARATOR = '\x1c\x1e'`. -/
def SIGNATURE_SEPARATOR : List Nat := [28, 30]

/-- `TUPLE_SIGNATURE`: the tulip emoji (U+1F337) followed by the separator. -/
def TUPLE_SIGNATURE : List Nat := [127799] ++ SIGNATURE_SEPARATOR

/-- `SET_SIGNATURE`: the basket emoji (U+1F9FA) followed by the separator. -/
def SET_SIGNATURE : List Nat := [129530] ++ SIGNATURE_SEPARATOR

/-- `FROZENSET_SIGNATURE`: ice cube (U+1F9CA) and basket (U+1F9FA) emojis
followed by the separator. -/
def FROZENSET_SIGNATURE : List Nat := [129482, 129530] ++ SIGNATURE_SEPARATOR

/-- `PICKLE_SIGNATURE`: the cucumber emoji (U+1F952) followed by the separator. -/
def PICKLE_SIGNATURE : List Nat := [129362] ++ SIGNATURE_SEPARATOR

/-- `BYTES_SIGNATURE`: the keycap-ten emoji (U+1F51F) followed by the separator. -/
def BYTES_SIGNATURE : List Nat := [128287] ++ SIGNATURE_SEPARATOR

/-- `BYTEARRAY_SIGNATURE`: the input-numbers emoji (U+1F522) followed by the
separator. -/
def BYTEARRAY_SIGNATURE : List Nat := [128290] ++ SIGNATURE_SEPARATOR

/-- `any(data.startswith(s) for s in STR_SIGNATURES)` for a Python string. -/
def startsWithStrSignature (s : List Nat) : Bool :=
  PICKLE_SIGNATURE.isPrefixOf s || BYTES_SIGNATURE.isPrefixOf s ||
    BYTEARRAY_SIGNATURE.isPrefixOf s

/-- The list-head part of `directly_msgpackable`'s list clause:
`len(data) == 0 or not isinstance(data[0], str) or data[0] not in LISTED_SIGNATURES`. -/
def headNotListedSignature : PyList → Bool
  | .nil => true
  | .cons (.str s) _ =>
    if s = TUPLE_SIGNATURE ∨ s = SET_SIGNATURE ∨ s = FROZENSET_SIGNATURE then false
    else true
  | .cons _ _ => true

mutual
/-- `serialization.directly_msgpackable`: whether the data can be handed to
the msgpack encoder as is.  A string qualifies when it does not start with
any of the reserved string signatures; an integer when it fits the msgpack
range; a list when all elements qualify and its first element is not one of
the listed signatures; a dict when all keys and values qualify; `bool`,
`float` and `None` always qualify. -/
def directly_msgpackable : PyVal → Bool
  | .str s => !startsWithStrSignature s
  | .int n => decide (-(2 : Int) ^ 63 ≤ n) && decide (n ≤ 2 ^ 64 - 1)
  | .list xs => dmList xs && headNotListedSignature xs
  | .dict kvs => dmDict kvs
  | .bool _ => true
  | .float _ => true
  | .none => true
  | _ => false

def dmList : PyList → Bool
  | .nil => true
  | .cons v rest => directly_msgpackable v && dmList rest

def dmDict : PyDict → Bool
  | .dnil => true
  | .dcons k v rest => directly_msgpackable k && directly_msgpackable v && dmDict rest
end

mutual
/-- The `Msgpackables` union type (`str | int | list | dict | bool | float |
None`, integers restricted to the range the msgpack wire format can carry):
the values the `msgspec` encoder accepts without error. -/
def msgpackable : PyVal → Bool
  | .str _ => true
  | .int n => decide (-(2 : Int) ^ 63 ≤ n) && decide (n ≤ 2 ^ 64 - 1)
  | .list xs => msgpackableList xs
  | .dict kvs => msgpackableDict kvs
  | .bool _ => true
  | .float _ => true
  | .none => true
  | _ => false

def msgpackableList : PyList → Bool
  | .nil => true
  | .cons v rest => msgpackable v && msgpackableList rest

def msgpackableDict : PyDict → Bool
  | .dnil => true
  | .dcons k v rest => msgpackable k && msgpackable v && msgpackableDict rest
end

/-- Number of elements of an embedded Python list. -/
def PyList.length : PyList → Nat
  | .nil => 0
  | .cons _ rest => PyList.length rest + 1

/-- Number of key-value pairs of an embedded Python dict. -/
def PyDict.length : PyDict → Nat
  | .dnil => 0
  | .dcons _ _ rest => PyDict.length rest + 1

mutual
/-- Model of `pickle.dumps`: a concrete injective, self-delimiting
serialization of the value model into a flat token list (standing in for
the pickle byte stream).  Only injectivity and invertibility matter to the
source code, which treats pickle as an opaque reversible serializer. -/
def pdump : PyVal → List Nat
  | .str s => 0 :: s.length :: s
  | .int n => if n < 0 then [1, n.natAbs] else [2, n.natAbs]
  | .float b => [3, b]
  | .bool b => [4, cond b 1 0]
  | .none => [5]
  | .list xs => 6 :: PyList.length xs :: pdumpList xs
  | .dict kvs => 7 :: PyDict.length kvs :: pdumpDict kvs
  | .tuple xs => 8 :: PyList.length xs :: pdumpList xs
  | .set xs => 9 :: PyList.length xs :: pdumpList xs
  | .frozenset xs => 10 :: PyList.length xs :: pdumpList xs
  | .bytes bs => 11 :: bs.length :: bs
  | .bytearray bs => 12 :: bs.length :: bs
  | .obj n => [13, n]

/-- Serialize the elements of a list, concatenated. -/
def pdumpList : PyList → List Nat
  | .nil => []
  | .cons v rest => pdump v ++ pdumpList rest

/-- Serialize the pairs of a dict, concatenated. -/
def pdumpDict : PyDict → List Nat
  | .dnil => []
  | .dcons k v rest => pdump k ++ pdump v ++ pdumpDict rest
end

mutual
/-- Fuel-indexed parser for `pdump`'s output; the left inverse underlying
the model of `pickle.loads`. -/
def pparse : Nat → List Nat → Option (PyVal × List Nat)
  | 0, _ => Option.none
  | _ + 1, [] => Option.none
  | fuel + 1, t :: rest =>
    if t = 0 then
      match rest with
      | len :: rest2 =>
        if len ≤ rest2.length then some (.str (rest2.take len), rest2.drop len)
        else Option.none
      | [] => Option.none
    else if t = 1 then
      match rest with
      | m :: rest2 => some (.int (-(m : Int)), rest2)
      | [] => Option.none
    else if t = 2 then
      match rest with
      | m :: rest2 => some (.int (m : Int), rest2)
      | [] => Option.none
    else if t = 3 then
      match rest with
      | b :: rest2 => some (.float b, rest2)
      | [] => Option.none
    else if t = 4 then
      match rest with
      | b :: rest2 => some (.bool (b == 1), rest2)
      | [] => Option.none
    else if t = 5 then some (.none, rest)
    else if t = 6 then
      match rest with
      | cnt :: rest2 =>
        match pparseList fuel cnt rest2 with
        | some (xs, rest3) => some (.list xs, rest3)
        | Option.none => Option.none
      | [] => Option.none
    else if t = 7 then
      match rest with
      | cnt :: rest2 =>
        match pparseDict fuel cnt rest2 with
        | some (kvs, rest3) => some (.dict kvs, rest3)
        | Option.none => Option.none
      | [] => Option.none
    else if t = 8 then
      match rest with
      | cnt :: rest2 =>
        match pparseList fuel cnt rest2 with
        | some (xs, rest3) => some (.tuple xs, rest3)
        | Option.none => Option.none
      | [] => Option.none
    else if t = 9 then
      match rest with
      | cnt :: rest2 =>
        match pparseList fuel cnt rest2 with
        | some (xs, rest3) => some (.set xs, rest3)
        | Option.none => Option.none
      | [] => Option.none
    else if t = 10 then
      match rest with
      | cnt :: rest2 =>
        match pparseList fuel cnt rest2 with
        | some (xs, rest3) => some (.frozenset xs, rest3)
        | Option.none => Option.none
      | [] => Option.none
    else if t = 11 then
      match rest with
      | len :: rest2 =>
        if len ≤ rest2.length then some (.bytes (rest2.take len), rest2.drop len)
        else Option.none
      | [] => Option.none
    else if t = 12 then
      match rest with
      | len :: rest2 =>
        if len ≤ rest2.length then some (.bytearray (rest2.take len), rest2.drop len)
        else Option.none
      | [] => Option.none
    else if t = 13 then
      match rest with
      | n :: rest2 => some (.obj n, rest2)
      | [] => Option.none
    else Option.none

/-- Parse `cnt` consecutive values. -/
def pparseList : Nat → Nat → List Nat → Option (PyList × List Nat)
  | _, 0, rest => some (.nil, rest)
  | 0, _ + 1, _ => Option.none
  | fuel + 1, cnt + 1, rest =>
    match pparse fuel rest with
    | some (v, rest2) =>
      match pparseList fuel cnt rest2 with
      | some (xs, rest3) => some (.cons v xs, rest3)
      | Option.none => Option.none
    | Option.none => Option.none

/-- Parse `cnt` consecutive key-value pairs. -/
def pparseDict : Nat → Nat → List Nat → Option (PyDict × List Nat)
  | _, 0, rest => some (.dnil, rest)
  | 0, _ + 1, _ => Option.none
  | fuel + 1, cnt + 1, rest =>
    match pparse fuel rest with
    | some (k, rest2) =>
      match pparse fuel rest2 with
      | some (v, rest3) =>
        match pparseDict fuel cnt rest3 with
        | some (kvs, rest4) => some (.dcons k v kvs, rest4)
        | Option.none => Option.none
      | Option.none => Option.none
    | Option.none => Option.none
end

mutual
/-- The fuel `pparse` needs to recover a value from its `pdump`. -/
def pcost : PyVal → Nat
  | .str _ => 1
  | .int _ => 1
  | .float _ => 1
  | .bool _ => 1
  | .none => 1
  | .list xs => 1 + pcostList xs
  | .dict kvs => 1 + pcostDict kvs
  | .tuple xs => 1 + pcostList xs
  | .set xs => 1 + pcostList xs
  | .frozenset xs => 1 + pcostList xs
  | .bytes _ => 1
  | .bytearray _ => 1
  | .obj _ => 1

/-- Fuel needed to parse all elements of a list. -/
def pcostList : PyList → Nat
  | .nil => 0
  | .cons v rest => 1 + pcost v + pcostList rest

/-- Fuel needed to parse all pairs of a dict. -/
def pcostDict : PyDict → Nat
  | .dnil => 0
  | .dcons k v rest => 1 + pcost k + pcost v + pcostDict rest
end

/-- Model of `pickle.dumps` (see `pdump`). -/
def pickle_dumps (v : PyVal) : List Nat := pdump v

/-- Model of `pickle.loads`: run the parser with ample fuel; on garbage
input (which the source never feeds it on the round-trip path) the model
returns `None`'s embedding. -/
def pickle_loads (bs : List Nat) : PyVal :=
  match pparse (2 * bs.length + 1) bs with
  | some (v, []) => v
  | _ => PyVal.none

mutual
/-- `serialization.make_directly_msgpackable`: directly-msgpackable data
passes through unchanged; tuples/sets/frozensets become signature-tagged
lists of recursively converted elements; `bytes`/`bytearray` become
signature-prefixed latin1 strings; everything else (including strings that
start with a reserved signature, out-of-range integers, and lists or dicts
containing non-msgpackable data) is pickled and wrapped with the pickle
signature. -/
def make_directly_msgpackable (data : PyVal) : PyVal :=
  if directly_msgpackable data then data
  else
    match data with
    | .tuple xs => .list (.cons (.str TUPLE_SIGNATURE) (mdmList xs))
    | .set xs => .list (.cons (.str SET_SIGNATURE) (mdmList xs))
    | .bytes bs => .str (BYTES_SIGNATURE ++ bs)
    | .frozenset xs => .list (.cons (.str FROZENSET_SIGNATURE) (mdmList xs))
    | .bytearray bs => .str (BYTEARRAY_SIGNATURE ++ bs)
    | other => .str (PICKLE_SIGNATURE ++ pickle_dumps other)

/-- Convert each element of a tuple/set/frozenset payload. -/
def mdmList : PyList → PyList
  | .nil => .nil
  | .cons v rest => .cons (make_directly_msgpackable v) (mdmList rest)
end

mutual
/-- `serialization.make_pythonic`: a string carrying the pickle, bytes or
bytearray signature is decoded back to the corresponding object; a
non-empty list whose first element equals the tuple, set or frozenset
signature is decoded back to the corresponding container with recursively
converted elements; everything else is returned as is. -/
def make_pythonic (data : PyVal) : PyVal :=
  match data with
  | .str s =>
    if PICKLE_SIGNATURE.isPrefixOf s then
      pickle_loads (s.drop PICKLE_SIGNATURE.length)
    else if BYTES_SIGNATURE.isPrefixOf s then
      .bytes (s.drop BYTES_SIGNATURE.length)
    else if BYTEARRAY_SIGNATURE.isPrefixOf s then
      .bytearray (s.drop BYTEARRAY_SIGNATURE.length)
    else .str s
  | .list (.cons h rest) =>
    if h = .str TUPLE_SIGNATURE then .tuple (mpList rest)
    else if h = .str SET_SIGNATURE then .set (mpList rest)
    else if h = .str FROZENSET_SIGNATURE then .frozenset (mpList rest)
    else .list (.cons h rest)
  | other => other

/-- Convert each element of a tagged container payload. -/
def mpList : PyList → PyList
  | .nil => .nil
  | .cons v rest => .cons (make_pythonic v) (mpList rest)
end

/-- `serialization.serialize`: force the data into directly-msgpackable
form, then encode it as msgpack.  The external msgpack byte encoding is
modelled as the identity embedding of msgpackable values (the wire blob is
represented by the value it encodes); the theorem for C9 shows the encoder
is only ever applied to values it accepts. -/
def serialize (data : PyVal) : PyVal :=
  make_directly_msgpackable data

/-- `serialization.deserialize`: decode the msgpack wire blob (modelled as
the identity, see `serialize`), then transform the result back into Python
objects. -/
def deserialize (data : PyVal) : PyVal :=
  make_pythonic data

/-- First-occurrence lookup in an ordered association list (Python `d[k]`
read access / `k in d`). -/
def assocLookup (d : List (String × PyVal)) (k : String) : Option PyVal :=
  match d with
  | [] => Option.none
  | (k', v) :: rest => if k' = k then some v else assocLookup rest k

/-- Python dict assignment `d[k] = v`: update the existing key in place
(keeping its position) or append a fresh key at the end. -/
def dictSet (d : List (String × PyVal)) (k : String) (v : PyVal) : List (String × PyVal) :=
  match d with
  | [] => [(k, v)]
  | (k', v') :: rest => if k' = k then (k', v) :: rest else (k', v') :: dictSet rest k v

/-- The loop `for argument, positional_argument in zip(arguments, args): 
arguments[argument] = positional_argument`: assign the positional arguments
to the dict's keys in order. -/
def zipAssign (d : List (String × PyVal)) (l : List PyVal) : List (String × PyVal) :=
  match d, l with
  | d, [] => d
  | [], _ => []
  | (k, _) :: rest, a :: more => (k, a) :: zipAssign rest more

/-- `helpers.inflate_arguments`: map positional arguments to their keywords
(truncating at the index of the `*args` parameter if one exists, Python's
`args[:args_i]` where a `None` bound means no truncation), collect the
remaining positional arguments under the `*args` parameter's name, then
merge the keyword arguments (`arguments |= kwargs`). -/
def inflate_arguments (signature : List (String × PyVal)) (args_parameter : Option String)
    (args_i : Option Nat) (args : List PyVal) (kwargs : List (String × PyVal)) :
    List (String × PyVal) :=
  let truncated := match args_i with
    | some i => args.take i
    | Option.none => args
  let arguments := zipAssign signature truncated
  let arguments := match args_parameter with
    | some p =>
      dictSet arguments p (.list (PyList.ofList (match args_i with
        | some i => args.drop i
        | Option.none => args)))
    | Option.none => arguments
  kwargs.foldl (fun acc kv => dictSet acc kv.1 kv.2) arguments

/-- The code points of a parameter name. -/
def strCodes (s : String) : List Nat := s.data.map Char.toNat

/-- Build the embedded dict spine of an arguments mapping. -/
def argumentsDict : List (String × PyVal) → PyDict
  | [] => .dnil
  | (k, v) :: rest => .dcons (.str (strCodes k)) v (argumentsDict rest)

/-- The canonical-arguments dict as a Python value (what the wrappers pass
to `caching.hash`). -/
def argumentsToPyVal (arguments : List (String × PyVal)) : PyVal :=
  .dict (argumentsDict arguments)

namespace Caching

/-- `caching.hash`: serialize the data, hash it with `xxh3_128_hexdigest`
and affix the serialized length.  The external hash plus length suffix is
modelled as an injective function of the serialized payload, so the key is
represented by the serialized payload itself. -/
def hash (data : PyVal) : PyVal := serialize data

/-- One on-disk cache entry: the file's last-modified time and the stored
wire blob. -/
structure Entry where
  mtime : Int
  wire : PyVal
  deriving DecidableEq, Repr

/-- One namespace directory: the map from cache key to entry file. -/
abbrev Store := List (PyVal × Entry)

/-- `os.path.exists` / reading the entry file for a key. -/
def storeLookup (store : Store) (key : PyVal) : Option Entry :=
  match store with
  | [] => Option.none
  | (k, e) :: rest => if k = key then some e else storeLookup rest key

/-- `os.remove` of a key's entry file. -/
def storeRemove (store : Store) (key : PyVal) : Store :=
  match store with
  | [] => []
  | (k, e) :: rest => if k = key then rest else (k, e) :: storeRemove rest key

/-- Overwrite or create a key's entry file. -/
def storeWrite (store : Store) (key : PyVal) (e : Entry) : Store :=
  match store with
  | [] => [(key, e)]
  | (k, e') :: rest => if k = key then (k, e) :: rest else (k, e') :: storeWrite rest key e

/-- The `expiry` argument: a number of seconds (`int`/`float`) or a
`datetime.timedelta`. -/
inductive Expiry : Type where
  | seconds : Int → Expiry
  | delta : Int → Expiry
  deriving DecidableEq, Repr

/-- The observable outcome of `caching.get`: the `NOT_IN_CACHE` sentinel, a
decoded value, or the `TypeError` Python raises when it evaluates
`timestamp + expiry` with a `timedelta` expiry (`float + timedelta` is
unsupported). -/
inductive GetResult : Type where
  | notInCache : GetResult
  | found : PyVal → GetResult
  | typeError : GetResult
  deriving DecidableEq, Repr

/-- `caching.set`: lock the entry and write the serialized value; the file's
last-modified time becomes the current time. -/
def set (key : PyVal) (value : PyVal) (now : Int) (store : Store) : Store :=
  storeWrite store key ⟨now, serialize value⟩

/-- `caching.get`: if the key's entry file does not exist, return the
`NOT_IN_CACHE` sentinel.  Otherwise, when an expiry is given, test
`isinstance(expiry, timedelta) and mtime + expiry < now or mtime + expiry <
now` exactly as the source parenthesizes it: for a `timedelta` expiry the
first disjunct handles the expired case, and when it is false Python falls
through to the second disjunct and raises `TypeError` on `float +
timedelta`; for a numeric expiry only the second disjunct runs.  An expired
entry is removed and `NOT_IN_CACHE` returned; otherwise the stored bytes
are read and deserialized. -/
def get (key : PyVal) (store : Store) (expiry : Option Expiry) (now : Int) :
    GetResult × Store :=
  match storeLookup store key with
  | Option.none => (.notInCache, store)
  | some e =>
    match expiry with
    | Option.none => (.found (deserialize e.wire), store)
    | some (.delta d) =>
      if e.mtime + d < now then (.notInCache, storeRemove store key)
      else (.typeError, store)
    | some (.seconds s) =>
      if e.mtime + s < now then (.notInCache, storeRemove store key)
      else (.found (deserialize e.wire), store)

end Caching

/-- The key both wrappers derive: inflate the arguments (dropping the first
positional argument when the function is a method, Python's
`args[is_method:]`) and hash the resulting mapping. -/
def wrapper_key (signature : List (String × PyVal)) (args_parameter : Option String)
    (args_i : Option Nat) (is_method : Bool) (args : List PyVal)
    (kwargs : List (String × PyVal)) : PyVal :=
  Caching.hash (argumentsToPyVal (inflate_arguments signature args_parameter args_i
    (args.drop (if is_method then 1 else 0)) kwargs))

/-- `persist_cache.sync_wrapper`: derive the key from the canonicalized
arguments; on a cache miss invoke the wrapped function, store its result
and return it; on a hit return the decoded stored value without invoking
the function.  The returned `Bool` records whether the wrapped function was
invoked; the result is `Option`-wrapped because a `timedelta` expiry can
make `caching.get` raise.  -/
def sync_wrapper (func : List PyVal → List (String × PyVal) → PyVal)
    (signature : List (String × PyVal)) (args_parameter : Option String)
    (args_i : Option Nat) (is_method : Bool) (expiry : Option Caching.Expiry)
    (now : Int) (store : Caching.Store) (args : List PyVal)
    (kwargs : List (String × PyVal)) : Option (PyVal × Caching.Store × Bool) :=
  let key := wrapper_key signature args_parameter args_i is_method args kwargs
  match Caching.get key store expiry now with
  | (.notInCache, store1) =>
    let value := func args kwargs
    some (value, Caching.set key value now store1, true)
  | (.found v, store1) => some (v, store1, false)
  | (.typeError, _) => Option.none

/-- `persist_cache.generator_wrapper`, with the wrapped generator function
modelled by the full sequence of items it would produce and the consumer by
the number of `next()` calls it makes (`demand`).  With no demand the
generator body never starts.  On a miss the producer's items are yielded as
produced while buffered, and the buffer is stored as a single list only
when the consumer drives the generator past the last item (exhaustion); on
a hit the stored list is replayed item by item without invoking the
producer.  The `Bool` records whether the producer was invoked. -/
def generator_wrapper (func : List PyVal → List (String × PyVal) → List PyVal)
    (signature : List (String × PyVal)) (args_parameter : Option String)
    (args_i : Option Nat) (is_method : Bool) (expiry : Option Caching.Expiry)
    (now : Int) (store : Caching.Store) (demand : Nat) (args : List PyVal)
    (kwargs : List (String × PyVal)) : Option (List PyVal × Caching.Store × Bool) :=
  if demand = 0 then some ([], store, false)
  else
    let key := wrapper_key signature args_parameter args_i is_method args kwargs
    match Caching.get key store expiry now with
    | (.notInCache, store1) =>
      let items := func args kwargs
      if items.length < demand then
        some (items, Caching.set key (.list (PyList.ofList items)) now store1, true)
      else
        some (items.take demand, store1, true)
    | (.found v, store1) =>
      let stored := match v with
        | .list xs => PyList.toList xs
        | _ => []
      some (stored.take demand, store1, false)
    | (.typeError, _) => Option.none

/-- The canonical arguments mapping of the spec: parameter names in
signature order, each bound to its logical value.  Used to state that
`inflate_arguments` is calling-convention independent. -/
def canonicalArguments : List (String × PyVal) → List PyVal → List (String × PyVal)
  | (k, _) :: sig, v :: vs => (k, v) :: canonicalArguments sig vs
  | _, _ => []

/-- The expiry duration in seconds (a `timedelta` carries a duration too). -/
def Caching.Expiry.duration : Caching.Expiry → Int
  | .seconds n => n
  | .delta n => n

set_option maxHeartbeats 1600000

/-- `pparseList` at count zero consumes nothing. -/
theorem pparseList_zero (fuel : Nat) (rest : List Nat) :
    pparseList fuel 0 rest = some (PyList.nil, rest) := by
  cases fuel <;> rfl

/-- One-step unfolding of `pparseList` at successor fuel and count. -/
theorem pparseList_succ (fuel cnt : Nat) (rest : List Nat) :
    pparseList (fuel + 1) (cnt + 1) rest =
      match pparse fuel rest with
      | some (v, rest2) =>
        match pparseList fuel cnt rest2 with
        | some (xs, rest3) => some (PyList.cons v xs, rest3)
        | Option.none => Option.none
      | Option.none => Option.none := rfl

/-- `pparseDict` at count zero consumes nothing. -/
theorem pparseDict_zero (fuel : Nat) (rest : List Nat) :
    pparseDict fuel 0 rest = some (PyDict.dnil, rest) := by
  cases fuel <;> rfl

/-- One-step unfolding of `pparseDict` at successor fuel and count. -/
theorem pparseDict_succ (fuel cnt : Nat) (rest : List Nat) :
    pparseDict (fuel + 1) (cnt + 1) rest =
      match pparse fuel rest with
      | some (k, rest2) =>
        match pparse fuel rest2 with
        | some (v, rest3) =>
          match pparseDict fuel cnt rest3 with
          | some (kvs, rest4) => some (PyDict.dcons k v kvs, rest4)
          | Option.none => Option.none
        | Option.none => Option.none
      | Option.none => Option.none := rfl

/-- Unfolding `pparse` at each tag. -/
theorem pparse_tag0 (fuel len : Nat) (rest2 : List Nat) :
    pparse (fuel + 1) (0 :: len :: rest2) =
      if len ≤ rest2.length then some (.str (rest2.take len), rest2.drop len)
      else Option.none := rfl

/-- Unfolding `pparse` at the negative-integer tag. -/
theorem pparse_tag1 (fuel m : Nat) (rest2 : List Nat) :
    pparse (fuel + 1) (1 :: m :: rest2) = some (.int (-(m : Int)), rest2) := rfl

/-- Unfolding `pparse` at the nonnegative-integer tag. -/
theorem pparse_tag2 (fuel m : Nat) (rest2 : List Nat) :
    pparse (fuel + 1) (2 :: m :: rest2) = some (.int (m : Int), rest2) := rfl

/-- Unfolding `pparse` at the float tag. -/
theorem pparse_tag3 (fuel b : Nat) (rest2 : List Nat) :
    pparse (fuel + 1) (3 :: b :: rest2) = some (.float b, rest2) := rfl

/-- Unfolding `pparse` at the bool tag. -/
theorem pparse_tag4 (fuel b : Nat) (rest2 : List Nat) :
    pparse (fuel + 1) (4 :: b :: rest2) = some (.bool (b == 1), rest2) := rfl

/-- Unfolding `pparse` at the `None` tag. -/
theorem pparse_tag5 (fuel : Nat) (rest : List Nat) :
    pparse (fuel + 1) (5 :: rest) = some (.none, rest) := rfl

/-- Unfolding `pparse` at the list tag. -/
theorem pparse_tag6 (fuel cnt : Nat) (rest2 : List Nat) :
    pparse (fuel + 1) (6 :: cnt :: rest2) =
      match pparseList fuel cnt rest2 with
      | some (xs, rest3) => some (.list xs, rest3)
      | Option.none => Option.none := rfl

/-- Unfolding `pparse` at the dict tag. -/
theorem pparse_tag7 (fuel cnt : Nat) (rest2 : List Nat) :
    pparse (fuel + 1) (7 :: cnt :: rest2) =
      match pparseDict fuel cnt rest2 with
      | some (kvs, rest3) => some (.dict kvs, rest3)
      | Option.none => Option.none := rfl

/-- Unfolding `pparse` at the tuple tag. -/
theorem pparse_tag8 (fuel cnt : Nat) (rest2 : List Nat) :
    pparse (fuel + 1) (8 :: cnt :: rest2) =
      match pparseList fuel cnt rest2 with
      | some (xs, rest3) => some (.tuple xs, rest3)
      | Option.none => Option.none := rfl

/-- Unfolding `pparse` at the set tag. -/
theorem pparse_tag9 (fuel cnt : Nat) (rest2 : List Nat) :
    pparse (fuel + 1) (9 :: cnt :: rest2) =
      match pparseList fuel cnt rest2 with
      | some (xs, rest3) => some (.set xs, rest3)
      | Option.none => Option.none := rfl

/-- Unfolding `pparse` at the frozenset tag. -/
theorem pparse_tag10 (fuel cnt : Nat) (rest2 : List Nat) :
    pparse (fuel + 1) (10 :: cnt :: rest2) =
      match pparseList fuel cnt rest2 with
      | some (xs, rest3) => some (.frozenset xs, rest3)
      | Option.none => Option.none := rfl

/-- Unfolding `pparse` at the bytes tag. -/
theorem pparse_tag11 (fuel len : Nat) (rest2 : List Nat) :
    pparse (fuel + 1) (11 :: len :: rest2) =
      if len ≤ rest2.length then some (.bytes (rest2.take len), rest2.drop len)
      else Option.none := rfl

/-- Unfolding `pparse` at the bytearray tag. -/
theorem pparse_tag12 (fuel len : Nat) (rest2 : List Nat) :
    pparse (fuel + 1) (12 :: len :: rest2) =
      if len ≤ rest2.length then some (.bytearray (rest2.take len), rest2.drop len)
      else Option.none := rfl

/-- Unfolding `pparse` at the opaque-object tag. -/
theorem pparse_tag13 (fuel n : Nat) (rest2 : List Nat) :
    pparse (fuel + 1) (13 :: n :: rest2) = some (.obj n, rest2) := rfl

mutual
/-- The parser recovers any dumped value (with any continuation), given at
least `pcost` fuel. -/
theorem pparse_pdump : ∀ (v : PyVal) (fuel : Nat) (r : List Nat),
    pcost v ≤ fuel → pparse fuel (pdump v ++ r) = some (v, r)
  | v, 0, r, h => by cases v <;> simp [pcost] at h <;> omega
  | .str s, fuel + 1, r, h => by
    simp only [pdump, List.cons_append]
    rw [pparse_tag0, if_pos (by simp)]
    simp [List.take_left, List.drop_left]
  | .int n, fuel + 1, r, h => by
    by_cases hn : n < 0
    · simp only [pdump, if_pos hn, List.cons_append]
      rw [pparse_tag1, Int.ofNat_natAbs_of_nonpos (le_of_lt hn)]
      simp
    · simp only [pdump, if_neg hn, List.cons_append]
      rw [pparse_tag2, Int.natAbs_of_nonneg (le_of_not_lt hn)]
      simp
  | .float b, fuel + 1, r, h => by
    simp only [pdump, List.cons_append]
    rw [pparse_tag3]
    simp
  | .bool b, fuel + 1, r, h => by
    cases b
    · simp only [pdump, cond, List.cons_append]
      rw [pparse_tag4]
      simp
    · simp only [pdump, cond, List.cons_append]
      rw [pparse_tag4]
      simp
  | .none, fuel + 1, r, h => by
    simp only [pdump, List.cons_append]
    rw [pparse_tag5]
    simp
  | .list xs, fuel + 1, r, h => by
    have hfuel : pcostList xs ≤ fuel := by simp [pcost] at h; omega
    simp only [pdump, List.cons_append, List.append_assoc]
    rw [pparse_tag6, pparseList_pdumpList xs fuel r hfuel]
  | .dict kvs, fuel + 1, r, h => by
    have hfuel : pcostDict kvs ≤ fuel := by simp [pcost] at h; omega
    simp only [pdump, List.cons_append, List.append_assoc]
    rw [pparse_tag7, pparseDict_pdumpDict kvs fuel r hfuel]
  | .tuple xs, fuel + 1, r, h => by
    have hfuel : pcostList xs ≤ fuel := by simp [pcost] at h; omega
    simp only [pdump, List.cons_append, List.append_assoc]
    rw [pparse_tag8, pparseList_pdumpList xs fuel r hfuel]
  | .set xs, fuel + 1, r, h => by
    have hfuel : pcostList xs ≤ fuel := by simp [pcost] at h; omega
    simp only [pdump, List.cons_append, List.append_assoc]
    rw [pparse_tag9, pparseList_pdumpList xs fuel r hfuel]
  | .frozenset xs, fuel + 1, r, h => by
    have hfuel : pcostList xs ≤ fuel := by simp [pcost] at h; omega
    simp only [pdump, List.cons_append, List.append_assoc]
    rw [pparse_tag10, pparseList_pdumpList xs fuel r hfuel]
  | .bytes bs, fuel + 1, r, h => by
    simp only [pdump, List.cons_append]
    rw [pparse_tag11, if_pos (by simp)]
    simp [List.take_left, List.drop_left]
  | .bytearray bs, fuel + 1, r, h => by
    simp only [pdump, List.cons_append]
    rw [pparse_tag12, if_pos (by simp)]
    simp [List.take_left, List.drop_left]
  | .obj n, fuel + 1, r, h => by
    simp only [pdump, List.cons_append]
    rw [pparse_tag13]
    simp
termination_by v fuel r h => sizeOf v

/-- The parser recovers the dumped elements of a list. -/
theorem pparseList_pdumpList : ∀ (l : PyList) (fuel : Nat) (r : List Nat),
    pcostList l ≤ fuel →
    pparseList fuel (PyList.length l) (pdumpList l ++ r) = some (l, r)
  | .nil, fuel, r, h => by
    simp only [PyList.length, pdumpList, List.nil_append, pparseList_zero]
  | .cons v rest, 0, r, h => by simp [pcostList] at h <;> omega
  | .cons v rest, fuel + 1, r, h => by
    have h1 : pcost v ≤ fuel := by simp [pcostList] at h; omega
    have h2 : pcostList rest ≤ fuel := by simp [pcostList] at h; omega
    simp only [PyList.length, pdumpList, List.append_assoc]
    rw [pparseList_succ, pparse_pdump v fuel _ h1]
    simp [pparseList_pdumpList rest fuel r h2]
termination_by l fuel r h => sizeOf l

/-- The parser recovers the dumped pairs of a dict. -/
theorem pparseDict_pdumpDict : ∀ (d : PyDict) (fuel : Nat) (r : List Nat),
    pcostDict d ≤ fuel →
    pparseDict fuel (PyDict.length d) (pdumpDict d ++ r) = some (d, r)
  | .dnil, fuel, r, h => by
    simp only [PyDict.length, pdumpDict, List.nil_append, pparseDict_zero]
  | .dcons k v rest, 0, r, h => by simp [pcostDict] at h <;> omega
  | .dcons k v rest, fuel + 1, r, h => by
    have h1 : pcost k ≤ fuel := by simp [pcostDict] at h; omega
    have h2 : pcost v ≤ fuel := by simp [pcostDict] at h; omega
    have h3 : pcostDict rest ≤ fuel := by simp [pcostDict] at h; omega
    simp only [PyDict.length, pdumpDict, List.append_assoc]
    rw [pparseDict_succ, pparse_pdump k fuel _ h1]
    simp only []
    rw [pparse_pdump v fuel _ h2]
    simp [pparseDict_pdumpDict rest fuel r h3]
termination_by d fuel r h => sizeOf d
end

mutual
/-- The fuel a value needs is within twice its dump length. -/
theorem pcost_pdump : ∀ v : PyVal, pcost v + 1 ≤ 2 * (pdump v).length
  | .str s => by simp [pcost, pdump] <;> omega
  | .int n => by
    by_cases hn : n < 0 <;> simp [pcost, pdump, hn]
  | .float b => by simp [pcost, pdump]
  | .bool b => by simp [pcost, pdump]
  | .none => by simp [pcost, pdump]
  | .list xs => by
    have := pcostList_pdumpList xs
    simp [pcost, pdump]; omega
  | .dict kvs => by
    have := pcostDict_pdumpDict kvs
    simp [pcost, pdump]; omega
  | .tuple xs => by
    have := pcostList_pdumpList xs
    simp [pcost, pdump]; omega
  | .set xs => by
    have := pcostList_pdumpList xs
    simp [pcost, pdump]; omega
  | .frozenset xs => by
    have := pcostList_pdumpList xs
    simp [pcost, pdump]; omega
  | .bytes bs => by simp [pcost, pdump] <;> omega
  | .bytearray bs => by simp [pcost, pdump] <;> omega
  | .obj n => by simp [pcost, pdump]

/-- The fuel a list of elements needs is within twice its dump length. -/
theorem pcostList_pdumpList : ∀ l : PyList, pcostList l ≤ 2 * (pdumpList l).length
  | .nil => by simp [pcostList, pdumpList]
  | .cons v rest => by
    have h1 := pcost_pdump v
    have h2 := pcostList_pdumpList rest
    simp [pcostList, pdumpList]; omega

/-- The fuel a dict of pairs needs is within twice its dump length. -/
theorem pcostDict_pdumpDict : ∀ d : PyDict, pcostDict d ≤ 2 * (pdumpDict d).length
  | .dnil => by simp [pcostDict, pdumpDict]
  | .dcons k v rest => by
    have h1 := pcost_pdump k
    have h2 := pcost_pdump v
    have h3 := pcostDict_pdumpDict rest
    simp [pcostDict, pdumpDict]; omega
end

/-- `pickle.loads` undoes `pickle.dumps` in the model. -/
theorem pickle_loads_dumps (v : PyVal) : pickle_loads (pickle_dumps v) = v := by
  unfold pickle_loads pickle_dumps
  have h := pparse_pdump v (2 * (pdump v).length + 1) []
  rw [List.append_nil] at h
  rw [h (by have := pcost_pdump v; omega)]

/-- A list is a `isPrefixOf`-prefix of itself followed by anything. -/
theorem isPrefixOf_append_self : ∀ (l r : List Nat), l.isPrefixOf (l ++ r) = true
  | [], r => by simp [List.isPrefixOf]
  | a :: l, r => by simp [List.isPrefixOf, isPrefixOf_append_self l r]

/-- The pickle signature never starts a bytes-tagged string. -/
theorem pickle_sig_not_before_bytes (bs : List Nat) :
    PICKLE_SIGNATURE.isPrefixOf (BYTES_SIGNATURE ++ bs) = false := by
  simp [PICKLE_SIGNATURE, BYTES_SIGNATURE, SIGNATURE_SEPARATOR, List.isPrefixOf]

/-- The pickle signature never starts a bytearray-tagged string. -/
theorem pickle_sig_not_before_bytearray (bs : List Nat) :
    PICKLE_SIGNATURE.isPrefixOf (BYTEARRAY_SIGNATURE ++ bs) = false := by
  simp [PICKLE_SIGNATURE, BYTEARRAY_SIGNATURE, SIGNATURE_SEPARATOR, List.isPrefixOf]

/-- The bytes signature never starts a bytearray-tagged string. -/
theorem bytes_sig_not_before_bytearray (bs : List Nat) :
    BYTES_SIGNATURE.isPrefixOf (BYTEARRAY_SIGNATURE ++ bs) = false := by
  simp [BYTES_SIGNATURE, BYTEARRAY_SIGNATURE, SIGNATURE_SEPARATOR, List.isPrefixOf]

/-- Unfolding `make_pythonic` on a string. -/
theorem make_pythonic_str (s : List Nat) :
    make_pythonic (.str s) =
      if PICKLE_SIGNATURE.isPrefixOf s then pickle_loads (s.drop PICKLE_SIGNATURE.length)
      else if BYTES_SIGNATURE.isPrefixOf s then .bytes (s.drop BYTES_SIGNATURE.length)
      else if BYTEARRAY_SIGNATURE.isPrefixOf s then .bytearray (s.drop BYTEARRAY_SIGNATURE.length)
      else .str s := rfl

/-- Unfolding `make_pythonic` on a non-empty list. -/
theorem make_pythonic_list_cons (h : PyVal) (rest : PyList) :
    make_pythonic (.list (.cons h rest)) =
      if h = .str TUPLE_SIGNATURE then .tuple (mpList rest)
      else if h = .str SET_SIGNATURE then .set (mpList rest)
      else if h = .str FROZENSET_SIGNATURE then .frozenset (mpList rest)
      else .list (.cons h rest) := rfl

/-- Unfolding `mdmList` on a cons cell. -/
theorem mdmList_cons (v : PyVal) (rest : PyList) :
    mdmList (.cons v rest) = .cons (make_directly_msgpackable v) (mdmList rest) := rfl

/-- Unfolding `mpList` on a cons cell. -/
theorem mpList_cons (v : PyVal) (rest : PyList) :
    mpList (.cons v rest) = .cons (make_pythonic v) (mpList rest) := rfl

/-- A true `headNotListedSignature` check means the head is none of the
three listed signatures. -/
theorem headNot_ne (hd : PyVal) (rest : PyList)
    (h : headNotListedSignature (.cons hd rest) = true) :
    hd ≠ .str TUPLE_SIGNATURE ∧ hd ≠ .str SET_SIGNATURE ∧ hd ≠ .str FROZENSET_SIGNATURE := by
  cases hd <;> simp_all [headNotListedSignature]

/-- `make_pythonic` leaves every directly-msgpackable value unchanged: a
qualifying string carries no reserved signature, and a qualifying list's
head equals no listed signature. -/
theorem mp_dm : ∀ (v : PyVal), directly_msgpackable v = true → make_pythonic v = v
  | .str s, h => by
    simp only [directly_msgpackable, startsWithStrSignature, Bool.not_eq_true',
      Bool.or_eq_false_iff] at h
    rw [make_pythonic_str, if_neg (by simp [h.1.1]), if_neg (by simp [h.1.2]),
      if_neg (by simp [h.2])]
  | .int n, h => rfl
  | .float b, h => rfl
  | .bool b, h => rfl
  | .none, h => rfl
  | .list .nil, h => rfl
  | .list (.cons hd rest), h => by
    simp only [directly_msgpackable, Bool.and_eq_true] at h
    have hne := headNot_ne hd rest h.2
    simp [make_pythonic_list_cons, hne.1, hne.2.1, hne.2.2]
  | .dict kvs, h => rfl
  | .tuple xs, h => by simp [directly_msgpackable] at h
  | .set xs, h => by simp [directly_msgpackable] at h
  | .frozenset xs, h => by simp [directly_msgpackable] at h
  | .bytes bs, h => by simp [directly_msgpackable] at h
  | .bytearray bs, h => by simp [directly_msgpackable] at h
  | .obj n, h => by simp [directly_msgpackable] at h

/-- A directly-msgpackable value passes through `make_directly_msgpackable`. -/
theorem mdm_of_dm (v : PyVal) (h : directly_msgpackable v = true) :
    make_directly_msgpackable v = v := by
  unfold make_directly_msgpackable
  rw [if_pos h]

/-- `make_directly_msgpackable` tags a tuple. -/
theorem mdm_tuple (xs : PyList) :
    make_directly_msgpackable (.tuple xs)
      = .list (.cons (.str TUPLE_SIGNATURE) (mdmList xs)) := rfl

/-- `make_directly_msgpackable` tags a set. -/
theorem mdm_set (xs : PyList) :
    make_directly_msgpackable (.set xs)
      = .list (.cons (.str SET_SIGNATURE) (mdmList xs)) := rfl

/-- `make_directly_msgpackable` tags a frozenset. -/
theorem mdm_frozenset (xs : PyList) :
    make_directly_msgpackable (.frozenset xs)
      = .list (.cons (.str FROZENSET_SIGNATURE) (mdmList xs)) := rfl

/-- `make_directly_msgpackable` tags a bytes object. -/
theorem mdm_bytes (bs : List Nat) :
    make_directly_msgpackable (.bytes bs) = .str (BYTES_SIGNATURE ++ bs) := rfl

/-- `make_directly_msgpackable` tags a bytearray. -/
theorem mdm_bytearray (bs : List Nat) :
    make_directly_msgpackable (.bytearray bs) = .str (BYTEARRAY_SIGNATURE ++ bs) := rfl

/-- `make_directly_msgpackable` pickles an arbitrary object. -/
theorem mdm_obj (n : Nat) :
    make_directly_msgpackable (.obj n)
      = .str (PICKLE_SIGNATURE ++ pickle_dumps (.obj n)) := rfl

/-- A string that is not directly msgpackable is pickled. -/
theorem mdm_str_not_dm (s : List Nat) (h : directly_msgpackable (.str s) = false) :
    make_directly_msgpackable (.str s)
      = .str (PICKLE_SIGNATURE ++ pickle_dumps (.str s)) := by
  simp [make_directly_msgpackable, h]

/-- An integer that is not directly msgpackable is pickled. -/
theorem mdm_int_not_dm (n : Int) (h : directly_msgpackable (.int n) = false) :
    make_directly_msgpackable (.int n)
      = .str (PICKLE_SIGNATURE ++ pickle_dumps (.int n)) := by
  simp [make_directly_msgpackable, h]

/-- A list that is not directly msgpackable is pickled whole. -/
theorem mdm_list_not_dm (xs : PyList) (h : directly_msgpackable (.list xs) = false) :
    make_directly_msgpackable (.list xs)
      = .str (PICKLE_SIGNATURE ++ pickle_dumps (.list xs)) := by
  simp [make_directly_msgpackable, h]

/-- A dict that is not directly msgpackable is pickled whole. -/
theorem mdm_dict_not_dm (kvs : PyDict) (h : directly_msgpackable (.dict kvs) = false) :
    make_directly_msgpackable (.dict kvs)
      = .str (PICKLE_SIGNATURE ++ pickle_dumps (.dict kvs)) := by
  simp [make_directly_msgpackable, h]

/-- Decoding a pickle-tagged string unpickles the original value. -/
theorem mp_pickled (w : PyVal) :
    make_pythonic (.str (PICKLE_SIGNATURE ++ pickle_dumps w)) = w := by
  rw [make_pythonic_str, if_pos (by simp [isPrefixOf_append_self]),
    List.drop_left]
  exact pickle_loads_dumps w

mutual
/-- Decoding undoes encoding on every value of the model: directly
msgpackable data passes through both ways; escaped kinds are tagged and
then recognized by their exact signature; everything else round-trips
through pickle. -/
theorem mdm_roundtrip : ∀ (v : PyVal), make_pythonic (make_directly_msgpackable v) = v
  | .str s => by
    by_cases hdm : directly_msgpackable (.str s) = true
    · rw [mdm_of_dm _ hdm, mp_dm _ hdm]
    · rw [mdm_str_not_dm s (Bool.not_eq_true _ ▸ hdm)]
      exact mp_pickled (.str s)
  | .int n => by
    by_cases hdm : directly_msgpackable (.int n) = true
    · rw [mdm_of_dm _ hdm, mp_dm _ hdm]
    · rw [mdm_int_not_dm n (Bool.not_eq_true _ ▸ hdm)]
      exact mp_pickled (.int n)
  | .float b => by rw [mdm_of_dm (.float b) rfl]; exact mp_dm (.float b) rfl
  | .bool b => by rw [mdm_of_dm (.bool b) rfl]; exact mp_dm (.bool b) rfl
  | .none => by rw [mdm_of_dm .none rfl]; exact mp_dm .none rfl
  | .list xs => by
    by_cases hdm : directly_msgpackable (.list xs) = true
    · rw [mdm_of_dm _ hdm, mp_dm _ hdm]
    · rw [mdm_list_not_dm xs (Bool.not_eq_true _ ▸ hdm)]
      exact mp_pickled (.list xs)
  | .dict kvs => by
    by_cases hdm : directly_msgpackable (.dict kvs) = true
    · rw [mdm_of_dm _ hdm, mp_dm _ hdm]
    · rw [mdm_dict_not_dm kvs (Bool.not_eq_true _ ▸ hdm)]
      exact mp_pickled (.dict kvs)
  | .tuple xs => by
    rw [mdm_tuple, make_pythonic_list_cons, if_pos rfl, mdmList_roundtrip xs]
  | .set xs => by
    rw [mdm_set, make_pythonic_list_cons, if_neg (by decide), if_pos rfl,
      mdmList_roundtrip xs]
  | .frozenset xs => by
    rw [mdm_frozenset, make_pythonic_list_cons, if_neg (by decide),
      if_neg (by decide), if_pos rfl, mdmList_roundtrip xs]
  | .bytes bs => by
    rw [mdm_bytes, make_pythonic_str,
      if_neg (by simp [pickle_sig_not_before_bytes]),
      if_pos (by simp [isPrefixOf_append_self]), List.drop_left]
  | .bytearray bs => by
    rw [mdm_bytearray, make_pythonic_str,
      if_neg (by simp [pickle_sig_not_before_bytearray]),
      if_neg (by simp [bytes_sig_not_before_bytearray]),
      if_pos (by simp [isPrefixOf_append_self]), List.drop_left]
  | .obj n => by
    rw [mdm_obj]
    exact mp_pickled (.obj n)

/-- Elementwise round trip for tagged container payloads. -/
theorem mdmList_roundtrip : ∀ (l : PyList), mpList (mdmList l) = l
  | .nil => rfl
  | .cons v rest => by
    rw [mdmList_cons, mpList_cons, mdm_roundtrip v, mdmList_roundtrip rest]
end

mutual
/-- Directly-msgpackable data lies in the `Msgpackables` union. -/
theorem dm_msgpackable : ∀ (v : PyVal), directly_msgpackable v = true → msgpackable v = true
  | .str s, h => rfl
  | .int n, h => h
  | .float b, h => rfl
  | .bool b, h => rfl
  | .none, h => rfl
  | .list xs, h => by
    simp only [directly_msgpackable, Bool.and_eq_true] at h
    simp only [msgpackable]
    exact dmList_msgpackable xs h.1
  | .dict kvs, h => by
    simp only [directly_msgpackable] at h
    simp only [msgpackable]
    exact dmDict_msgpackable kvs h
  | .tuple xs, h => by simp [directly_msgpackable] at h
  | .set xs, h => by simp [directly_msgpackable] at h
  | .frozenset xs, h => by simp [directly_msgpackable] at h
  | .bytes bs, h => by simp [directly_msgpackable] at h
  | .bytearray bs, h => by simp [directly_msgpackable] at h
  | .obj n, h => by simp [directly_msgpackable] at h

/-- Elementwise version of `dm_msgpackable` for lists. -/
theorem dmList_msgpackable : ∀ (l : PyList), dmList l = true → msgpackableList l = true
  | .nil, h => rfl
  | .cons v rest, h => by
    simp only [dmList, Bool.and_eq_true] at h
    simp only [msgpackableList, Bool.and_eq_true]
    exact ⟨dm_msgpackable v h.1, dmList_msgpackable rest h.2⟩

/-- Pairwise version of `dm_msgpackable` for dicts. -/
theorem dmDict_msgpackable : ∀ (d : PyDict), dmDict d = true → msgpackableDict d = true
  | .dnil, h => rfl
  | .dcons k v rest, h => by
    simp only [dmDict, Bool.and_eq_true] at h
    simp only [msgpackableDict, Bool.and_eq_true]
    exact ⟨⟨dm_msgpackable k h.1.1, dm_msgpackable v h.1.2⟩, dmDict_msgpackable rest h.2⟩
end

mutual
/-- `make_directly_msgpackable` always lands in the `Msgpackables` union,
so the msgpack encoder inside `serialize` never sees a value it rejects. -/
theorem mdm_msgpackable : ∀ (v : PyVal), msgpackable (make_directly_msgpackable v) = true
  | .str s => by
    by_cases hdm : directly_msgpackable (.str s) = true
    · rw [mdm_of_dm _ hdm]; exact dm_msgpackable _ hdm
    · rw [mdm_str_not_dm s (Bool.not_eq_true _ ▸ hdm)]; rfl
  | .int n => by
    by_cases hdm : directly_msgpackable (.int n) = true
    · rw [mdm_of_dm _ hdm]; exact dm_msgpackable _ hdm
    · rw [mdm_int_not_dm n (Bool.not_eq_true _ ▸ hdm)]; rfl
  | .float b => by rw [mdm_of_dm (.float b) rfl]; rfl
  | .bool b => by rw [mdm_of_dm (.bool b) rfl]; rfl
  | .none => by rw [mdm_of_dm .none rfl]; rfl
  | .list xs => by
    by_cases hdm : directly_msgpackable (.list xs) = true
    · rw [mdm_of_dm _ hdm]; exact dm_msgpackable _ hdm
    · rw [mdm_list_not_dm xs (Bool.not_eq_true _ ▸ hdm)]; rfl
  | .dict kvs => by
    by_cases hdm : directly_msgpackable (.dict kvs) = true
    · rw [mdm_of_dm _ hdm]; exact dm_msgpackable _ hdm
    · rw [mdm_dict_not_dm kvs (Bool.not_eq_true _ ▸ hdm)]; rfl
  | .tuple xs => by
    rw [mdm_tuple]
    simp only [msgpackable, msgpackableList, Bool.true_and]
    exact mdmList_msgpackable xs
  | .set xs => by
    rw [mdm_set]
    simp only [msgpackable, msgpackableList, Bool.true_and]
    exact mdmList_msgpackable xs
  | .frozenset xs => by
    rw [mdm_frozenset]
    simp only [msgpackable, msgpackableList, Bool.true_and]
    exact mdmList_msgpackable xs
  | .bytes bs => by rw [mdm_bytes]; rfl
  | .bytearray bs => by rw [mdm_bytearray]; rfl
  | .obj n => by rw [mdm_obj]; rfl

/-- Elementwise version of `mdm_msgpackable`. -/
theorem mdmList_msgpackable : ∀ (l : PyList), msgpackableList (mdmList l) = true
  | .nil => rfl
  | .cons v rest => by
    rw [mdmList_cons]
    simp only [msgpackableList, Bool.and_eq_true]
    exact ⟨mdm_msgpackable v, mdmList_msgpackable rest⟩
end

/-- The codec round trip (shared form used by several claims). -/
theorem deserialize_serialize (v : PyVal) : deserialize (serialize v) = v :=
  mdm_roundtrip v

/-- C1 — Codec round-trip: for every value built from the directly-encodable
model (strings, 64-bit-representable integers, floats, booleans, null,
lists, dicts) plus the six escaped kinds (tuple, set, frozenset, bytes,
bytearray, opaque picklable objects), nested arbitrarily,
`deserialize (serialize v)` equals `v`. -/
theorem codec_roundtrip (v : PyVal) : deserialize (serialize v) = v :=
  deserialize_serialize v

/-- C5 — Signature-collision safety: an ordinary string that is not prefixed
by the full reserved pickle/bytes/bytearray signature, and any list
(including the empty list) whose first element is not exactly the full
tuple/set/frozenset signature token, encode and decode back to the very
same plain string or list, never misidentified as an escaped compound
kind. -/
theorem signature_collision_safety :
    (∀ s : List Nat,
      PICKLE_SIGNATURE.isPrefixOf s = false →
      BYTES_SIGNATURE.isPrefixOf s = false →
      BYTEARRAY_SIGNATURE.isPrefixOf s = false →
      deserialize (serialize (.str s)) = .str s) ∧
    (∀ xs : PyList, headNotListedSignature xs = true →
      deserialize (serialize (.list xs)) = .list xs) :=
  ⟨fun s _ _ _ => deserialize_serialize (.str s),
   fun xs _ => deserialize_serialize (.list xs)⟩

/-- Witness for C5 at the string `"hi"` and the singleton list `["h"]`. -/
theorem signature_collision_safety_witness :
    deserialize (serialize (.str [104, 105])) = .str [104, 105] ∧
    deserialize (serialize (.list (.cons (.str [104]) .nil)))
      = .list (.cons (.str [104]) .nil) :=
  ⟨signature_collision_safety.1 [104, 105] (by decide) (by decide) (by decide),
   signature_collision_safety.2 (.cons (.str [104]) .nil) (by decide)⟩

/-- C9 — Implicit serializer totality: `make_directly_msgpackable` always
returns a value of the `Msgpackables` model (nested parts included), so the
msgpack encoding step inside `serialize` never receives an unencodable
object and its error branch is unreachable. -/
theorem serializer_totality (v : PyVal) : msgpackable (serialize v) = true :=
  mdm_msgpackable v

/-- Looking a key up after a Python dict assignment. -/
theorem assocLookup_dictSet (d : List (String × PyVal)) (k : String) (v : PyVal)
    (nm : String) :
    assocLookup (dictSet d k v) nm = if nm = k then some v else assocLookup d nm := by
  induction d with
  | nil =>
    by_cases h : nm = k
    · subst h; simp [dictSet, assocLookup]
    · have h' : ¬k = nm := fun hh => h hh.symm
      simp [dictSet, assocLookup, h, h']
  | cons p rest ih =>
    obtain ⟨k', v'⟩ := p
    by_cases hk : k' = k
    · subst hk
      by_cases h : k' = nm
      · subst h; simp [dictSet, assocLookup]
      · have h' : ¬nm = k' := fun hh => h hh.symm
        simp [dictSet, assocLookup, h, h']
    · by_cases h : k' = nm
      · subst h
        have h' : ¬k' = k := hk
        simp [dictSet, assocLookup, hk, h']
      · simp [dictSet, assocLookup, hk, h, ih]

/-- Assigning an existing key leaves the key sequence unchanged. -/
theorem dictSet_keys_mem (d : List (String × PyVal)) (k : String) (v : PyVal)
    (h : k ∈ d.map Prod.fst) :
    (dictSet d k v).map Prod.fst = d.map Prod.fst := by
  induction d with
  | nil => simp at h
  | cons p rest ih =>
    obtain ⟨k', v'⟩ := p
    by_cases hk : k' = k
    · simp [dictSet, hk]
    · simp only [List.map_cons, List.mem_cons] at h
      have hmem : k ∈ rest.map Prod.fst := by
        rcases h with h1 | h1
        · exact absurd h1.symm hk
        · exact h1
      simp [dictSet, hk, ih hmem]

/-- Assigning a fresh key appends it at the end. -/
theorem dictSet_keys_notMem (d : List (String × PyVal)) (k : String) (v : PyVal)
    (h : k ∉ d.map Prod.fst) :
    (dictSet d k v).map Prod.fst = d.map Prod.fst ++ [k] := by
  induction d with
  | nil => simp [dictSet]
  | cons p rest ih =>
    obtain ⟨k', v'⟩ := p
    simp only [List.map_cons, List.mem_cons] at h
    push_neg at h
    have hk : ¬k' = k := fun hh => h.1 hh.symm
    simp [dictSet, hk, ih h.2]

/-- Lookup fails exactly on the keys the dict does not hold. -/
theorem assocLookup_none_iff (d : List (String × PyVal)) (nm : String) :
    assocLookup d nm = Option.none ↔ nm ∉ d.map Prod.fst := by
  induction d with
  | nil => simp [assocLookup]
  | cons p rest ih =>
    obtain ⟨k', v'⟩ := p
    by_cases h : k' = nm
    · subst h; simp [assocLookup]
    · have h' : ¬nm = k' := fun hh => h hh.symm
      simp [assocLookup, h, h', ih]

/-- A successful lookup returns a stored pair. -/
theorem assocLookup_mem (d : List (String × PyVal)) (nm : String) (v : PyVal)
    (h : assocLookup d nm = some v) : (nm, v) ∈ d := by
  induction d with
  | nil => simp [assocLookup] at h
  | cons p rest ih =>
    obtain ⟨k', v'⟩ := p
    by_cases hk : k' = nm
    · subst hk
      rw [show assocLookup ((k', v') :: rest) k' = some v' from by simp [assocLookup]] at h
      injection h with h
      subst h
      exact List.mem_cons_self _ _
    · simp only [assocLookup, if_neg hk] at h
      exact List.mem_cons_of_mem _ (ih h)

/-- With distinct keys, every stored pair is found by lookup. -/
theorem assocLookup_of_mem_nodup (d : List (String × PyVal)) (nm : String) (v : PyVal)
    (hnd : (d.map Prod.fst).Nodup) (h : (nm, v) ∈ d) : assocLookup d nm = some v := by
  induction d with
  | nil => simp at h
  | cons p rest ih =>
    obtain ⟨k', v'⟩ := p
    simp only [List.map_cons, List.nodup_cons] at hnd
    rcases List.mem_cons.mp h with h1 | h1
    · have h2 : nm = k' ∧ v = v' := by
        constructor
        · exact congrArg Prod.fst h1
        · exact congrArg Prod.snd h1
      obtain ⟨ha, hb⟩ := h2
      subst ha; subst hb
      simp [assocLookup]
    · have hne : ¬k' = nm := by
        intro hh
        exact hnd.1 (hh ▸ List.mem_map_of_mem Prod.fst h1)
      simp [assocLookup, hne, ih hnd.2 h1]

/-- Lookup distributes over append, preferring the left part. -/
theorem assocLookup_append (A B : List (String × PyVal)) (nm : String) :
    assocLookup (A ++ B) nm =
      match assocLookup A nm with
      | some v => some v
      | Option.none => assocLookup B nm := by
  induction A with
  | nil => simp [assocLookup]
  | cons p rest ih =>
    obtain ⟨k', v'⟩ := p
    by_cases h : k' = nm
    · simp [assocLookup, h]
    · simp [assocLookup, h, ih]

/-- Two dicts with the same key sequence, distinct keys and equal lookups
are equal. -/
theorem assoc_ext : ∀ (d e : List (String × PyVal)),
    d.map Prod.fst = e.map Prod.fst → (d.map Prod.fst).Nodup →
    (∀ nm, assocLookup d nm = assocLookup e nm) → d = e
  | [], [], _, _, _ => rfl
  | [], (k, v) :: e, hk, _, _ => by simp at hk
  | (k, v) :: d, [], hk, _, _ => by simp at hk
  | (k, v) :: d, (k', v') :: e, hk, hnd, hl => by
    simp only [List.map_cons, List.cons.injEq] at hk
    obtain ⟨hk1, hk2⟩ := hk
    subst hk1
    have hv : v = v' := by
      have hx := hl k
      simp only [assocLookup, if_pos rfl] at hx
      injection hx
    subst hv
    simp only [List.map_cons, List.nodup_cons] at hnd
    have htail : d = e := by
      apply assoc_ext d e hk2 hnd.2
      intro nm
      by_cases hnm : nm = k
      · subst hnm
        have h1 : assocLookup d nm = Option.none :=
          (assocLookup_none_iff d nm).mpr hnd.1
        have h2 : assocLookup e nm = Option.none :=
          (assocLookup_none_iff e nm).mpr (hk2 ▸ hnd.1)
        rw [h1, h2]
      · have hne : ¬k = nm := fun hh => hnm hh.symm
        have hx := hl nm
        simp only [assocLookup, if_neg hne] at hx
        exact hx
    rw [htail]

/-- Lookup after merging keyword arguments (`arguments |= kwargs`): keyword
entries win, everything else falls through. -/
theorem assocLookup_foldl_dictSet :
    ∀ (kw : List (String × PyVal)) (d : List (String × PyVal)) (nm : String),
    (kw.map Prod.fst).Nodup →
    assocLookup (kw.foldl (fun acc kv => dictSet acc kv.1 kv.2) d) nm =
      match assocLookup kw nm with
      | some v => some v
      | Option.none => assocLookup d nm
  | [], d, nm, _ => by simp [assocLookup]
  | (k0, v0) :: rest, d, nm, hnd => by
    simp only [List.map_cons, List.nodup_cons] at hnd
    rw [List.foldl_cons, assocLookup_foldl_dictSet rest (dictSet d k0 v0) nm hnd.2]
    by_cases h : nm = k0
    · subst h
      have hrest : assocLookup rest nm = Option.none :=
        (assocLookup_none_iff rest nm).mpr hnd.1
      simp [assocLookup, hrest, assocLookup_dictSet]
    · have h' : ¬k0 = nm := fun hh => h hh.symm
      simp only [assocLookup, if_neg h', assocLookup_dictSet, if_neg h]

/-- Key sequence after merging keyword arguments: existing keys stay in
place, fresh keys are appended in their keyword order. -/
theorem keys_foldl_dictSet :
    ∀ (kw : List (String × PyVal)) (d : List (String × PyVal)),
    (kw.map Prod.fst).Nodup →
    (kw.foldl (fun acc kv => dictSet acc kv.1 kv.2) d).map Prod.fst =
      d.map Prod.fst ++
        (kw.filter (fun kv => kv.1 ∉ d.map Prod.fst)).map Prod.fst
  | [], d, _ => by simp
  | (k0, v0) :: rest, d, hnd => by
    simp only [List.map_cons, List.nodup_cons] at hnd
    rw [List.foldl_cons, keys_foldl_dictSet rest (dictSet d k0 v0) hnd.2]
    by_cases h : k0 ∈ d.map Prod.fst
    · rw [dictSet_keys_mem d k0 v0 h]
      have hfilter :
          List.filter (fun kv => decide (kv.1 ∉ d.map Prod.fst)) ((k0, v0) :: rest)
            = List.filter (fun kv => decide (kv.1 ∉ d.map Prod.fst)) rest := by
        simp [List.filter, h]
      rw [hfilter]
    · rw [dictSet_keys_notMem d k0 v0 h]
      have hfilter :
          List.filter (fun kv => decide (kv.1 ∉ d.map Prod.fst ++ [k0])) rest
            = List.filter (fun kv => decide (kv.1 ∉ d.map Prod.fst)) rest := by
        apply List.filter_congr
        intro kv hkv
        have hne : kv.1 ≠ k0 := by
          intro hh
          exact hnd.1 (hh ▸ List.mem_map_of_mem Prod.fst hkv)
        simp [List.mem_append, hne]
      rw [hfilter]
      have hhead :
          List.filter (fun kv => decide (kv.1 ∉ d.map Prod.fst)) ((k0, v0) :: rest)
            = (k0, v0) :: List.filter (fun kv => decide (kv.1 ∉ d.map Prod.fst)) rest := by
        simp [List.filter, h]
      rw [hhead]
      simp

/-- With distinct keys, filtering preserves a kept entry's lookup. -/
theorem assocLookup_filter_of_nodup :
    ∀ (kw : List (String × PyVal)) (P : String × PyVal → Bool) (nm : String) (v : PyVal),
    (kw.map Prod.fst).Nodup → (nm, v) ∈ kw → P (nm, v) = true →
    assocLookup (kw.filter P) nm = some v
  | [], P, nm, v, _, hmem, _ => by simp at hmem
  | (k0, v0) :: rest, P, nm, v, hnd, hmem, hP => by
    simp only [List.map_cons, List.nodup_cons] at hnd
    rcases List.mem_cons.mp hmem with h1 | h1
    · have ha : nm = k0 := congrArg Prod.fst h1
      have hb : v = v0 := congrArg Prod.snd h1
      subst ha; subst hb
      rw [show ((nm, v) :: rest).filter P = (nm, v) :: rest.filter P from by
        simp [List.filter, hP]]
      simp [assocLookup]
    · have hne : ¬k0 = nm := by
        intro hh
        exact hnd.1 (hh ▸ List.mem_map_of_mem Prod.fst h1)
      by_cases hPh : P (k0, v0) = true
      · rw [show ((k0, v0) :: rest).filter P = (k0, v0) :: rest.filter P from by
          simp [List.filter, hPh]]
        simp only [assocLookup, if_neg hne]
        exact assocLookup_filter_of_nodup rest P nm v hnd.2 h1 hP
      · rw [show ((k0, v0) :: rest).filter P = rest.filter P from by
          simp [List.filter, hPh]]
        exact assocLookup_filter_of_nodup rest P nm v hnd.2 h1 hP

/-- `zipAssign` never changes the key sequence. -/
theorem zipAssign_keys : ∀ (d : List (String × PyVal)) (l : List PyVal),
    (zipAssign d l).map Prod.fst = d.map Prod.fst
  | d, [] => by cases d <;> simp [zipAssign]
  | [], a :: more => by simp [zipAssign]
  | (k, v) :: rest, a :: more => by
    simp [zipAssign, zipAssign_keys rest more]

/-- `zipAssign` replaces the first values and keeps the tail. -/
theorem zipAssign_eq_canonical : ∀ (d : List (String × PyVal)) (l : List PyVal),
    zipAssign d l = canonicalArguments d l ++ d.drop l.length
  | d, [] => by cases d <;> simp [zipAssign, canonicalArguments]
  | [], a :: more => by simp [zipAssign, canonicalArguments]
  | (k, v) :: rest, a :: more => by
    simp [zipAssign, canonicalArguments, zipAssign_eq_canonical rest more]

/-- The canonical arguments carry the signature's key sequence. -/
theorem canonicalArguments_keys : ∀ (d : List (String × PyVal)) (vs : List PyVal),
    d.length = vs.length →
    (canonicalArguments d vs).map Prod.fst = d.map Prod.fst
  | [], [], _ => rfl
  | [], v :: vs, h => by simp at h
  | (k, dv) :: rest, [], h => by simp at h
  | (k, dv) :: rest, v :: vs, h => by
    simp only [List.length_cons, Nat.succ.injEq] at h
    simp [canonicalArguments, canonicalArguments_keys rest vs h]

/-- Binding a truncated value list binds a prefix of the bindings. -/
theorem canonicalArguments_take : ∀ (d : List (String × PyVal)) (vs : List PyVal) (c : Nat),
    canonicalArguments d (vs.take c) = (canonicalArguments d vs).take c
  | [], vs, c => by cases vs <;> cases c <;> simp [canonicalArguments]
  | (k, dv) :: rest, [], c => by cases c <;> simp [canonicalArguments]
  | (k, dv) :: rest, v :: vs, 0 => by simp [canonicalArguments]
  | (k, dv) :: rest, v :: vs, c + 1 => by
    simp [canonicalArguments, canonicalArguments_take rest vs c]

/-- Indexing the canonical arguments: the parameter at position `i` is bound
to the value at position `i`. -/
theorem assocLookup_canonical_get? :
    ∀ (sig : List (String × PyVal)) (vs : List PyVal) (i : Nat) (p : String),
    (sig.map Prod.fst).Nodup → sig.length = vs.length →
    (sig.map Prod.fst).get? i = some p →
    assocLookup (canonicalArguments sig vs) p = vs.get? i
  | [], vs, i, p, _, _, hget => by simp at hget
  | (k, dv) :: rest, [], i, p, _, hlen, _ => by simp at hlen
  | (k, dv) :: rest, v :: vs, 0, p, _, _, hget => by
    simp only [List.map_cons, List.get?] at hget
    injection hget with hget
    subst hget
    simp [canonicalArguments, assocLookup]
  | (k, dv) :: rest, v :: vs, i + 1, p, hnd, hlen, hget => by
    simp only [List.map_cons, List.get?] at hget
    simp only [List.map_cons, List.nodup_cons] at hnd
    simp only [List.length_cons, Nat.succ.injEq] at hlen
    have hpmem : p ∈ rest.map Prod.fst := List.get?_mem hget
    have hne : ¬k = p := by
      intro hh
      exact hnd.1 (hh ▸ hpmem)
    simp only [canonicalArguments, assocLookup, if_neg hne, List.get?]
    exact assocLookup_canonical_get? rest vs i p hnd.2 hlen hget

/-- Looking up any name after the positional-assignment phase agrees with
the canonical bindings, provided every parameter left at its default (the
dropped suffix) defaults to its canonical value. -/
theorem assocLookup_zipAssign_canonical
    (sig : List (String × PyVal)) (vs : List PyVal) (c : Nat) (nm : String)
    (hlen : sig.length = vs.length)
    (hnodup : (sig.map Prod.fst).Nodup)
    (hc : c ≤ vs.length)
    (hdef : ∀ pr ∈ sig.drop c, pr.1 = nm →
        assocLookup (canonicalArguments sig vs) nm = some pr.2) :
    assocLookup (zipAssign sig (vs.take c)) nm
      = assocLookup (canonicalArguments sig vs) nm := by
  have hcanonkeys := canonicalArguments_keys sig vs hlen
  have hcanonnodup : ((canonicalArguments sig vs).map Prod.fst).Nodup := by
    rw [hcanonkeys]; exact hnodup
  rw [zipAssign_eq_canonical, canonicalArguments_take, List.length_take,
    Nat.min_def, if_pos hc, assocLookup_append]
  cases htake : assocLookup ((canonicalArguments sig vs).take c) nm with
  | some v =>
    have hmem : (nm, v) ∈ canonicalArguments sig vs := by
      exact List.take_subset c _ (assocLookup_mem _ nm v htake)
    rw [assocLookup_of_mem_nodup _ nm v hcanonnodup hmem]
  | none =>
    cases hdrop : assocLookup (sig.drop c) nm with
    | some dflt =>
      exact (hdef (nm, dflt) (assocLookup_mem _ nm dflt hdrop) rfl).symm
    | none =>
      have h1 : nm ∉ ((canonicalArguments sig vs).take c).map Prod.fst :=
        (assocLookup_none_iff _ nm).mp htake
      have h2 : nm ∉ (sig.drop c).map Prod.fst :=
        (assocLookup_none_iff _ nm).mp hdrop
      have h3 : nm ∉ sig.map Prod.fst := by
        intro hmem
        rw [← List.take_append_drop c (sig.map Prod.fst), List.mem_append] at hmem
        rcases hmem with hmem | hmem
        · apply h1
          rw [List.map_take, hcanonkeys]
          exact hmem
        · apply h2
          rw [List.map_drop]
          exact hmem
      rw [(assocLookup_none_iff _ nm).mpr (by rw [hcanonkeys]; exact h3)]

/-- Merging the keyword arguments into any base dict with the signature's
keys yields exactly the canonical bindings followed by the extra keyword
arguments, provided keyword values agree with the canonical bindings and
non-keyword names already do. -/
theorem foldl_dictSet_canonical
    (sig : List (String × PyVal)) (vs : List PyVal) (kw base : List (String × PyVal))
    (hlen : sig.length = vs.length)
    (hnodup : (sig.map Prod.fst).Nodup)
    (hkwnodup : (kw.map Prod.fst).Nodup)
    (hbasekeys : base.map Prod.fst = sig.map Prod.fst)
    (hbase : ∀ nm, nm ∉ kw.map Prod.fst →
        assocLookup base nm = assocLookup (canonicalArguments sig vs) nm)
    (hkw : ∀ kv ∈ kw, kv.1 ∈ sig.map Prod.fst →
        assocLookup (canonicalArguments sig vs) kv.1 = some kv.2) :
    kw.foldl (fun acc kv => dictSet acc kv.1 kv.2) base
      = canonicalArguments sig vs ++ kw.filter (fun kv => kv.1 ∉ sig.map Prod.fst) := by
  have hcanonkeys := canonicalArguments_keys sig vs hlen
  apply assoc_ext
  · rw [keys_foldl_dictSet kw base hkwnodup, List.map_append, hcanonkeys]
    simp only [hbasekeys]
  · rw [keys_foldl_dictSet kw base hkwnodup]
    simp only [hbasekeys]
    rw [List.nodup_append]
    refine ⟨hnodup, ?_, ?_⟩
    · exact ((List.filter_sublist kw).map Prod.fst).nodup hkwnodup
    · intro a ha hb
      simp only [List.mem_map] at hb
      obtain ⟨kv, hkv, hkva⟩ := hb
      rw [List.mem_filter] at hkv
      have := hkv.2
      rw [hkva] at this
      simp only [decide_eq_true_eq] at this
      exact this (List.mem_map.mp ha)
  · intro nm
    rw [assocLookup_foldl_dictSet kw base nm hkwnodup, assocLookup_append]
    cases hkwl : assocLookup kw nm with
    | some v =>
      have hmemkw : (nm, v) ∈ kw := assocLookup_mem kw nm v hkwl
      by_cases hsig : nm ∈ sig.map Prod.fst
      · rw [(hkw (nm, v) hmemkw hsig).symm]
        rw [hkw (nm, v) hmemkw hsig]
      · have hcanon : assocLookup (canonicalArguments sig vs) nm = Option.none :=
          (assocLookup_none_iff _ nm).mpr (by rw [hcanonkeys]; exact hsig)
        rw [hcanon]
        rw [assocLookup_filter_of_nodup kw _ nm v hkwnodup hmemkw (by
          simp only [decide_eq_true_eq]; exact hsig)]
    | none =>
      have hnm : nm ∉ kw.map Prod.fst := (assocLookup_none_iff kw nm).mp hkwl
      rw [hbase nm hnm]
      cases hcanon : assocLookup (canonicalArguments sig vs) nm with
      | some w => rfl
      | none =>
        have hfilter : assocLookup (kw.filter (fun kv => kv.1 ∉ sig.map Prod.fst)) nm
            = Option.none := by
          rw [assocLookup_none_iff]
          intro hmem
          apply hnm
          simp only [List.mem_map] at hmem
          obtain ⟨kv, hkv, hkva⟩ := hmem
          exact hkva ▸ List.mem_map_of_mem Prod.fst (List.mem_of_mem_filter hkv)
        rw [hfilter]

/-- C2 (amended) — Canonicalization invariance: for any signature with
distinct parameter names (with or without a variadic-positional parameter),
any logical binding of the parameters, any positional/keyword split of the
call and any order of the keyword arguments naming declared parameters,
`inflate_arguments` returns exactly the canonical bindings (in signature
order) followed by the extra keyword arguments in their keyword order.  All
such calls therefore share one CanonicalArguments value and one CacheKey.
Extra keyword arguments destined for a variadic-keyword parameter must
appear in a fixed relative order; reordering them changes the mapping's
insertion order and hence the key (see the counterexample). -/
theorem inflate_arguments_canonical
    (sig : List (String × PyVal)) (vs : List PyVal) (vi : Option (String × Nat))
    (c : Nat) (t : List PyVal) (kw : List (String × PyVal))
    (hlen : sig.length = vs.length)
    (hnodup : (sig.map Prod.fst).Nodup)
    (hkwnodup : (kw.map Prod.fst).Nodup)
    (hvar : match vi with
      | some pi =>
        (sig.map Prod.fst).get? pi.2 = some pi.1 ∧
        vs.get? pi.2 = some (.list (PyList.ofList t)) ∧
        c ≤ pi.2 ∧ (c < pi.2 → t = []) ∧ pi.1 ∉ kw.map Prod.fst
      | Option.none => t = [] ∧ c ≤ sig.length)
    (hkw : ∀ kv ∈ kw, kv.1 ∈ sig.map Prod.fst →
        assocLookup (canonicalArguments sig vs) kv.1 = some kv.2)
    (hdefault : ∀ pr ∈ sig.drop c, pr.1 ∉ kw.map Prod.fst →
        (∀ p i, vi = some (p, i) → pr.1 ≠ p) →
        assocLookup (canonicalArguments sig vs) pr.1 = some pr.2) :
    inflate_arguments sig (vi.map Prod.fst) (vi.map Prod.snd) (vs.take c ++ t) kw
      = canonicalArguments sig vs ++ kw.filter (fun kv => kv.1 ∉ sig.map Prod.fst) := by
  cases vi with
  | none =>
    obtain ⟨ht, hc⟩ := hvar
    subst ht
    rw [List.append_nil]
    simp only [inflate_arguments, Option.map_none']
    refine foldl_dictSet_canonical sig vs kw _ hlen hnodup hkwnodup
      (zipAssign_keys _ _) ?_ hkw
    intro nm hnm
    apply assocLookup_zipAssign_canonical sig vs c nm hlen hnodup (hlen ▸ hc)
    intro pr hpr hprnm
    rw [← hprnm]
    exact hdefault pr hpr (hprnm ▸ hnm) (fun p i hcon => by cases hcon)
  | some pi =>
    obtain ⟨p, i⟩ := pi
    obtain ⟨hget, hgetv, hci, htail, hpk⟩ := hvar
    have hi : i < sig.length := by
      by_contra hcon
      rw [List.get?_eq_none.mpr (by simpa using Nat.le_of_not_lt hcon)] at hget
      cases hget
    have hcv : c ≤ vs.length := hlen ▸ le_trans hci (le_of_lt hi)
    have hlentake : (vs.take c).length = c := by
      rw [List.length_take]
      exact Nat.min_eq_left hcv
    have htake2 : (vs.take c ++ t).take i = vs.take c := by
      rcases Nat.lt_or_ge c i with hlt | hge
      · rw [htail hlt, List.append_nil]
        exact List.take_of_length_le (by rw [hlentake]; exact le_of_lt hlt)
      · have hce : c = i := Nat.le_antisymm hci hge
        subst hce
        exact List.take_left' hlentake
    have hdrop2 : (vs.take c ++ t).drop i = t := by
      rcases Nat.lt_or_ge c i with hlt | hge
      · rw [htail hlt, List.append_nil]
        exact List.drop_eq_nil_of_le (by rw [hlentake]; exact le_of_lt hlt)
      · have hce : c = i := Nat.le_antisymm hci hge
        subst hce
        exact List.drop_left' hlentake
    have hpmem : p ∈ sig.map Prod.fst := List.get?_mem hget
    simp only [inflate_arguments, Option.map_some']
    rw [htake2, hdrop2]
    refine foldl_dictSet_canonical sig vs kw _ hlen hnodup hkwnodup ?_ ?_ hkw
    · rw [dictSet_keys_mem _ p _ (by rw [zipAssign_keys]; exact hpmem)]
      exact zipAssign_keys _ _
    · intro nm hnm
      rw [assocLookup_dictSet]
      by_cases hnp : nm = p
      · subst hnp
        rw [if_pos rfl,
          assocLookup_canonical_get? sig vs i nm hnodup hlen hget, hgetv]
      · rw [if_neg hnp]
        apply assocLookup_zipAssign_canonical sig vs c nm hlen hnodup hcv
        intro pr hpr hprnm
        rw [← hprnm]
        refine hdefault pr hpr (hprnm ▸ hnm) ?_
        intro p' i' hcon
        injection hcon with h1
        have hp' : p' = p := (congrArg Prod.fst h1).symm
        rw [hprnm, hp']
        exact hnp

/-- Witness for the amended C2: `f(a, b=2)` called as `f(1)` (one positional
argument, `b` left to its default) yields the canonical bindings
`{a: 1, b: 2}` with no extras. -/
theorem inflate_arguments_canonical_witness :
    inflate_arguments [("a", PyVal.none), ("b", PyVal.int 2)] Option.none Option.none
        (List.take 1 [PyVal.int 1, PyVal.int 2] ++ []) [("b", PyVal.int 2)]
      = canonicalArguments [("a", PyVal.none), ("b", PyVal.int 2)]
            [PyVal.int 1, PyVal.int 2]
          ++ List.filter
              (fun kv =>
                kv.1 ∉ List.map Prod.fst [("a", PyVal.none), ("b", PyVal.int 2)])
              [("b", PyVal.int 2)] :=
  inflate_arguments_canonical [("a", PyVal.none), ("b", PyVal.int 2)]
    [PyVal.int 1, PyVal.int 2] Option.none 1 [] [("b", PyVal.int 2)]
    rfl (by decide) (by decide) ⟨rfl, by decide⟩ (by decide)
    (by
      intro pr hpr hnm hguard
      rw [show [("a", PyVal.none), ("b", PyVal.int 2)].drop 1 = [("b", PyVal.int 2)]
        from rfl] at hpr
      rw [List.mem_singleton] at hpr
      subst hpr
      simp at hnm)

/-- Counterexample to C2 as stated: with a variadic-keyword parameter
(empty declared signature), the two all-keyword invocations
`f(x=1, y=2)` and `f(y=2, x=1)` bind the same logical arguments — the
resulting mappings are permutations of each other, i.e. equal as Python
dicts — yet `inflate_arguments` returns differently ordered mappings and
`caching.hash` therefore derives different cache keys. -/
theorem inflate_arguments_kwargs_order_counterexample :
    (inflate_arguments [] Option.none Option.none []
        [("x", PyVal.int 1), ("y", PyVal.int 2)]).Perm
      (inflate_arguments [] Option.none Option.none []
        [("y", PyVal.int 2), ("x", PyVal.int 1)]) ∧
    inflate_arguments [] Option.none Option.none []
        [("x", PyVal.int 1), ("y", PyVal.int 2)]
      ≠ inflate_arguments [] Option.none Option.none []
        [("y", PyVal.int 2), ("x", PyVal.int 1)] ∧
    Caching.hash (argumentsToPyVal (inflate_arguments [] Option.none Option.none []
        [("x", PyVal.int 1), ("y", PyVal.int 2)]))
      ≠ Caching.hash (argumentsToPyVal (inflate_arguments [] Option.none Option.none []
        [("y", PyVal.int 2), ("x", PyVal.int 1)])) := by
  refine ⟨by decide, by decide, by decide⟩

/-- Writing a key makes it readable. -/
theorem storeLookup_storeWrite_self (store : Caching.Store) (key : PyVal)
    (e : Caching.Entry) :
    Caching.storeLookup (Caching.storeWrite store key e) key = some e := by
  induction store with
  | nil => simp [Caching.storeWrite, Caching.storeLookup]
  | cons p rest ih =>
    obtain ⟨k', e'⟩ := p
    by_cases h : k' = key
    · subst h; simp [Caching.storeWrite, Caching.storeLookup]
    · simp [Caching.storeWrite, Caching.storeLookup, h, ih]

/-- C3 — Entry-store `get` contract at a concrete state: with an entry
written at time 0 and queried at time 50, an unexpired `timedelta` expiry of
100 seconds makes `get` raise `TypeError` (the un-parenthesized
`isinstance(...) and A or B` test falls through to `timestamp + expiry`,
which is unsupported for `float + timedelta`), while the same unexpired
numeric expiry decodes and returns the stored value as the claim
describes. -/
theorem get_timedelta_unexpired_type_error :
    Caching.get (PyVal.int 0)
        [(PyVal.int 0, ⟨0, serialize PyVal.none⟩)] (some (.delta 100)) 50
      = (.typeError, [(PyVal.int 0, ⟨0, serialize PyVal.none⟩)]) ∧
    Caching.get (PyVal.int 0)
        [(PyVal.int 0, ⟨0, serialize PyVal.none⟩)] (some (.seconds 100)) 50
      = (.found PyVal.none, [(PyVal.int 0, ⟨0, serialize PyVal.none⟩)]) := by
  constructor <;> rfl

/-- C10 — Implicit read-only `get`: with no expiry, or with an absent key,
`get` returns leaving the namespace's entry files untouched; and the store
changes only by removing the queried key, exactly when an expiry is
supplied, the entry exists and its age makes it expired. -/
theorem get_read_only (key : PyVal) (store : Caching.Store)
    (expiry : Option Caching.Expiry) (now : Int) :
    ((Caching.get key store Option.none now).2 = store) ∧
    (Caching.storeLookup store key = Option.none →
      (Caching.get key store expiry now).2 = store) ∧
    (∀ e ex, Caching.storeLookup store key = some e → expiry = some ex →
      ¬(e.mtime + ex.duration < now) → (Caching.get key store expiry now).2 = store) ∧
    (∀ e ex, Caching.storeLookup store key = some e → expiry = some ex →
      e.mtime + ex.duration < now →
      (Caching.get key store expiry now).2 = Caching.storeRemove store key) := by
  refine ⟨?_, ?_, ?_, ?_⟩
  · cases h : Caching.storeLookup store key <;> simp [Caching.get, h]
  · intro h
    rcases expiry with _ | ex
    · simp [Caching.get, h]
    · cases ex <;> simp [Caching.get, h]
  · intro e ex he hex hlt
    subst hex
    cases ex with
    | seconds s =>
      simp only [Caching.Expiry.duration] at hlt
      simp [Caching.get, he, if_neg hlt]
    | delta d =>
      simp only [Caching.Expiry.duration] at hlt
      simp [Caching.get, he, if_neg hlt]
  · intro e ex he hex hlt
    subst hex
    cases ex with
    | seconds s =>
      simp only [Caching.Expiry.duration] at hlt
      simp [Caching.get, he, if_pos hlt]
    | delta d =>
      simp only [Caching.Expiry.duration] at hlt
      simp [Caching.get, he, if_pos hlt]

/-- Witness for C10 at concrete states: no expiry, absent key, unexpired
numeric expiry (store untouched) and expired numeric expiry (entry
removed). -/
theorem get_read_only_witness :
    ((Caching.get (PyVal.int 0) [(PyVal.int 0, ⟨0, PyVal.none⟩)] Option.none 50).2
        = [(PyVal.int 0, ⟨0, PyVal.none⟩)]) ∧
    ((Caching.get (PyVal.int 1) [(PyVal.int 0, ⟨0, PyVal.none⟩)]
        (some (.seconds 10)) 50).2 = [(PyVal.int 0, ⟨0, PyVal.none⟩)]) ∧
    ((Caching.get (PyVal.int 0) [(PyVal.int 0, ⟨0, PyVal.none⟩)]
        (some (.seconds 100)) 50).2 = [(PyVal.int 0, ⟨0, PyVal.none⟩)]) ∧
    ((Caching.get (PyVal.int 0) [(PyVal.int 0, ⟨0, PyVal.none⟩)]
        (some (.seconds 10)) 50).2
      = Caching.storeRemove [(PyVal.int 0, ⟨0, PyVal.none⟩)] (PyVal.int 0)) :=
  ⟨(get_read_only (PyVal.int 0) [(PyVal.int 0, ⟨0, PyVal.none⟩)] Option.none 50).1,
   (get_read_only (PyVal.int 1) [(PyVal.int 0, ⟨0, PyVal.none⟩)]
      (some (.seconds 10)) 50).2.1 (by decide),
   (get_read_only (PyVal.int 0) [(PyVal.int 0, ⟨0, PyVal.none⟩)]
      (some (.seconds 100)) 50).2.2.1 ⟨0, PyVal.none⟩ (.seconds 100) (by decide) rfl
      (by decide),
   (get_read_only (PyVal.int 0) [(PyVal.int 0, ⟨0, PyVal.none⟩)]
      (some (.seconds 10)) 50).2.2.2 ⟨0, PyVal.none⟩ (.seconds 10) (by decide) rfl
      (by decide)⟩

/-- C8 — Receiver noninterference: with the method flag set, the wrappers
drop the first positional argument before canonicalization, so two
invocations that differ only in that receiver argument share the same
CanonicalArguments and the same CacheKey. -/
theorem receiver_noninterference (signature : List (String × PyVal))
    (args_parameter : Option String) (args_i : Option Nat) (r1 r2 : PyVal)
    (rest : List PyVal) (kwargs : List (String × PyVal)) :
    inflate_arguments signature args_parameter args_i
        ((r1 :: rest).drop (if true then 1 else 0)) kwargs
      = inflate_arguments signature args_parameter args_i
          ((r2 :: rest).drop (if true then 1 else 0)) kwargs ∧
    wrapper_key signature args_parameter args_i true (r1 :: rest) kwargs
      = wrapper_key signature args_parameter args_i true (r2 :: rest) kwargs :=
  ⟨rfl, rfl⟩

/-- C4 — Get-or-compute correctness: with no expiry and an initially absent
key, two successive invocations of the synchronous wrapper whose arguments
canonicalize identically invoke the wrapped function exactly once — on the
first call, which stores the result — and both calls return that same
result. -/
theorem sync_wrapper_get_or_compute
    (func : List PyVal → List (String × PyVal) → PyVal)
    (signature : List (String × PyVal)) (args_parameter : Option String)
    (args_i : Option Nat) (is_method : Bool) (now1 now2 : Int)
    (store : Caching.Store) (args1 args2 : List PyVal)
    (kwargs1 kwargs2 : List (String × PyVal))
    (hcanon : inflate_arguments signature args_parameter args_i
        (args2.drop (if is_method then 1 else 0)) kwargs2
      = inflate_arguments signature args_parameter args_i
        (args1.drop (if is_method then 1 else 0)) kwargs1)
    (hmiss : Caching.storeLookup store
        (wrapper_key signature args_parameter args_i is_method args1 kwargs1)
      = Option.none) :
    sync_wrapper func signature args_parameter args_i is_method Option.none now1 store
        args1 kwargs1
      = some (func args1 kwargs1,
          Caching.set (wrapper_key signature args_parameter args_i is_method args1 kwargs1)
            (func args1 kwargs1) now1 store, true) ∧
    sync_wrapper func signature args_parameter args_i is_method Option.none now2
        (Caching.set (wrapper_key signature args_parameter args_i is_method args1 kwargs1)
          (func args1 kwargs1) now1 store)
        args2 kwargs2
      = some (func args1 kwargs1,
          Caching.set (wrapper_key signature args_parameter args_i is_method args1 kwargs1)
            (func args1 kwargs1) now1 store, false) := by
  have hkey : wrapper_key signature args_parameter args_i is_method args2 kwargs2
      = wrapper_key signature args_parameter args_i is_method args1 kwargs1 := by
    unfold wrapper_key
    rw [hcanon]
  have hget1 : Caching.get
      (wrapper_key signature args_parameter args_i is_method args1 kwargs1) store
      Option.none now1 = (Caching.GetResult.notInCache, store) := by
    simp [Caching.get, hmiss]
  have hget2 : Caching.get
      (wrapper_key signature args_parameter args_i is_method args1 kwargs1)
      (Caching.set (wrapper_key signature args_parameter args_i is_method args1 kwargs1)
        (func args1 kwargs1) now1 store) Option.none now2
      = (Caching.GetResult.found (func args1 kwargs1),
         Caching.set (wrapper_key signature args_parameter args_i is_method args1 kwargs1)
           (func args1 kwargs1) now1 store) := by
    simp [Caching.get, Caching.set, storeLookup_storeWrite_self, deserialize_serialize]
  constructor
  · simp [sync_wrapper, hget1]
  · simp [sync_wrapper, hkey, hget2]

/-- Witness for C4: `f(a)` cached, called as `f(1)` then `f(a=1)` in a fresh
namespace — one invocation, both calls return the stored result. -/
theorem sync_wrapper_get_or_compute_witness :
    sync_wrapper (fun _ _ => PyVal.int 7) [("a", PyVal.none)] Option.none Option.none
        false Option.none 0 [] [PyVal.int 1] []
      = some (PyVal.int 7,
          Caching.set (wrapper_key [("a", PyVal.none)] Option.none Option.none false
              [PyVal.int 1] [])
            (PyVal.int 7) 0 [], true) ∧
    sync_wrapper (fun _ _ => PyVal.int 7) [("a", PyVal.none)] Option.none Option.none
        false Option.none 1
        (Caching.set (wrapper_key [("a", PyVal.none)] Option.none Option.none false
            [PyVal.int 1] [])
          (PyVal.int 7) 0 [])
        [] [("a", PyVal.int 1)]
      = some (PyVal.int 7,
          Caching.set (wrapper_key [("a", PyVal.none)] Option.none Option.none false
              [PyVal.int 1] [])
            (PyVal.int 7) 0 [], false) :=
  sync_wrapper_get_or_compute (fun _ _ => PyVal.int 7) [("a", PyVal.none)] Option.none
    Option.none false 0 1 [] [PyVal.int 1] [] [] [("a", PyVal.int 1)] (by decide) rfl

/-- C6 — Concrete four-call scenario: caching `f(a, b=2)` in a fresh
namespace, the calls `f(1)`, `f(1, 2)`, `f(a=1, b=2)` and `f(b=2, a=1)`
derive one and the same cache key, leave exactly one stored entry, and
every call after the first returns the first call's result without invoking
`f` again. -/
theorem four_call_single_entry
    (func : List PyVal → List (String × PyVal) → PyVal) (now : Int) :
    ∃ st : Caching.Store,
      sync_wrapper func [("a", PyVal.none), ("b", PyVal.int 2)] Option.none Option.none
          false Option.none now [] [PyVal.int 1] []
        = some (func [PyVal.int 1] [], st, true) ∧
      sync_wrapper func [("a", PyVal.none), ("b", PyVal.int 2)] Option.none Option.none
          false Option.none now st [PyVal.int 1, PyVal.int 2] []
        = some (func [PyVal.int 1] [], st, false) ∧
      sync_wrapper func [("a", PyVal.none), ("b", PyVal.int 2)] Option.none Option.none
          false Option.none now st [] [("a", PyVal.int 1), ("b", PyVal.int 2)]
        = some (func [PyVal.int 1] [], st, false) ∧
      sync_wrapper func [("a", PyVal.none), ("b", PyVal.int 2)] Option.none Option.none
          false Option.none now st [] [("b", PyVal.int 2), ("a", PyVal.int 1)]
        = some (func [PyVal.int 1] [], st, false) ∧
      st.length = 1 := by
  refine ⟨[(wrapper_key [("a", PyVal.none), ("b", PyVal.int 2)] Option.none Option.none
      false [PyVal.int 1] [],
      ⟨now, serialize (func [PyVal.int 1] [])⟩)], ?_, ?_, ?_, ?_, rfl⟩
  · have hget : Caching.get
        (wrapper_key [("a", PyVal.none), ("b", PyVal.int 2)] Option.none Option.none
          false [PyVal.int 1] []) [] Option.none now
        = (Caching.GetResult.notInCache, []) := rfl
    simp [sync_wrapper, hget, Caching.set, Caching.storeWrite]
  · have hkey : wrapper_key [("a", PyVal.none), ("b", PyVal.int 2)] Option.none
        Option.none false [PyVal.int 1, PyVal.int 2] []
        = wrapper_key [("a", PyVal.none), ("b", PyVal.int 2)] Option.none Option.none
          false [PyVal.int 1] [] := rfl
    have hget : Caching.get
        (wrapper_key [("a", PyVal.none), ("b", PyVal.int 2)] Option.none Option.none
          false [PyVal.int 1] [])
        [(wrapper_key [("a", PyVal.none), ("b", PyVal.int 2)] Option.none Option.none
            false [PyVal.int 1] [],
          ⟨now, serialize (func [PyVal.int 1] [])⟩)] Option.none now
        = (Caching.GetResult.found (deserialize (serialize (func [PyVal.int 1] []))),
           [(wrapper_key [("a", PyVal.none), ("b", PyVal.int 2)] Option.none Option.none
              false [PyVal.int 1] [],
             ⟨now, serialize (func [PyVal.int 1] [])⟩)]) := by
      simp [Caching.get, Caching.storeLookup]
    simp [sync_wrapper, hkey, hget, deserialize_serialize]
  · have hkey : wrapper_key [("a", PyVal.none), ("b", PyVal.int 2)] Option.none
        Option.none false [] [("a", PyVal.int 1), ("b", PyVal.int 2)]
        = wrapper_key [("a", PyVal.none), ("b", PyVal.int 2)] Option.none Option.none
          false [PyVal.int 1] [] := rfl
    have hget : Caching.get
        (wrapper_key [("a", PyVal.none), ("b", PyVal.int 2)] Option.none Option.none
          false [PyVal.int 1] [])
        [(wrapper_key [("a", PyVal.none), ("b", PyVal.int 2)] Option.none Option.none
            false [PyVal.int 1] [],
          ⟨now, serialize (func [PyVal.int 1] [])⟩)] Option.none now
        = (Caching.GetResult.found (deserialize (serialize (func [PyVal.int 1] []))),
           [(wrapper_key [("a", PyVal.none), ("b", PyVal.int 2)] Option.none Option.none
              false [PyVal.int 1] [],
             ⟨now, serialize (func [PyVal.int 1] [])⟩)]) := by
      simp [Caching.get, Caching.storeLookup]
    simp [sync_wrapper, hkey, hget, deserialize_serialize]
  · have hkey : wrapper_key [("a", PyVal.none), ("b", PyVal.int 2)] Option.none
        Option.none false [] [("b", PyVal.int 2), ("a", PyVal.int 1)]
        = wrapper_key [("a", PyVal.none), ("b", PyVal.int 2)] Option.none Option.none
          false [PyVal.int 1] [] := rfl
    have hget : Caching.get
        (wrapper_key [("a", PyVal.none), ("b", PyVal.int 2)] Option.none Option.none
          false [PyVal.int 1] [])
        [(wrapper_key [("a", PyVal.none), ("b", PyVal.int 2)] Option.none Option.none
            false [PyVal.int 1] [],
          ⟨now, serialize (func [PyVal.int 1] [])⟩)] Option.none now
        = (Caching.GetResult.found (deserialize (serialize (func [PyVal.int 1] []))),
           [(wrapper_key [("a", PyVal.none), ("b", PyVal.int 2)] Option.none Option.none
              false [PyVal.int 1] [],
             ⟨now, serialize (func [PyVal.int 1] [])⟩)]) := by
      simp [Caching.get, Caching.storeLookup]
    simp [sync_wrapper, hkey, hget, deserialize_serialize]

/-- Converting to the embedded list spine and back is the identity. -/
theorem PyList.toList_ofList : ∀ l : List PyVal, PyList.toList (PyList.ofList l) = l
  | [] => rfl
  | v :: rest => by simp [PyList.ofList, PyList.toList, PyList.toList_ofList rest]

/-- C7 — Lazy-sequence caching: in a fresh namespace, a consumer that drives
the cached generator past its last item receives every produced item in
order and the full buffered sequence is then stored as one list; a consumer
that stops at or before the last item receives the produced prefix and
nothing is stored; a second call with the same arguments replays the stored
sequence item by item, in order, without invoking the producer. -/
theorem generator_wrapper_lazy
    (producer : List PyVal → List (String × PyVal) → List PyVal)
    (signature : List (String × PyVal)) (args_parameter : Option String)
    (args_i : Option Nat) (is_method : Bool) (now1 now2 : Int)
    (store : Caching.Store) (args : List PyVal) (kwargs : List (String × PyVal))
    (hmiss : Caching.storeLookup store
        (wrapper_key signature args_parameter args_i is_method args kwargs)
      = Option.none) :
    (generator_wrapper producer signature args_parameter args_i is_method Option.none
        now1 store ((producer args kwargs).length + 1) args kwargs
      = some (producer args kwargs,
          Caching.set (wrapper_key signature args_parameter args_i is_method args kwargs)
            (.list (PyList.ofList (producer args kwargs))) now1 store, true)) ∧
    (∀ demand, 0 < demand → demand ≤ (producer args kwargs).length →
      generator_wrapper producer signature args_parameter args_i is_method Option.none
          now1 store demand args kwargs
        = some ((producer args kwargs).take demand, store, true)) ∧
    (generator_wrapper producer signature args_parameter args_i is_method Option.none
        now2
        (Caching.set (wrapper_key signature args_parameter args_i is_method args kwargs)
          (.list (PyList.ofList (producer args kwargs))) now1 store)
        ((producer args kwargs).length + 1) args kwargs
      = some (producer args kwargs,
          Caching.set (wrapper_key signature args_parameter args_i is_method args kwargs)
            (.list (PyList.ofList (producer args kwargs))) now1 store, false)) := by
  have hget1 : Caching.get
      (wrapper_key signature args_parameter args_i is_method args kwargs) store
      Option.none now1 = (Caching.GetResult.notInCache, store) := by
    simp [Caching.get, hmiss]
  have hget2 : Caching.get
      (wrapper_key signature args_parameter args_i is_method args kwargs)
      (Caching.set (wrapper_key signature args_parameter args_i is_method args kwargs)
        (.list (PyList.ofList (producer args kwargs))) now1 store) Option.none now2
      = (Caching.GetResult.found (.list (PyList.ofList (producer args kwargs))),
         Caching.set (wrapper_key signature args_parameter args_i is_method args kwargs)
           (.list (PyList.ofList (producer args kwargs))) now1 store) := by
    simp only [Caching.set]
    rw [show Caching.get
        (wrapper_key signature args_parameter args_i is_method args kwargs)
        (Caching.storeWrite store
          (wrapper_key signature args_parameter args_i is_method args kwargs)
          ⟨now1, serialize (.list (PyList.ofList (producer args kwargs)))⟩)
        Option.none now2
      = (Caching.GetResult.found
          (deserialize (serialize (.list (PyList.ofList (producer args kwargs))))),
         Caching.storeWrite store
          (wrapper_key signature args_parameter args_i is_method args kwargs)
          ⟨now1, serialize (.list (PyList.ofList (producer args kwargs)))⟩) from by
      simp [Caching.get, storeLookup_storeWrite_self]]
    rw [deserialize_serialize]
  refine ⟨?_, ?_, ?_⟩
  · simp [generator_wrapper, hget1, Nat.lt_succ_self]
  · intro demand hd0 hdle
    have hne : ¬demand = 0 := Nat.pos_iff_ne_zero.mp hd0
    have hnlt : ¬(producer args kwargs).length < demand := Nat.not_lt.mpr hdle
    simp [generator_wrapper, hne, hget1, hnlt]
  · simp [generator_wrapper, hget2, PyList.toList_ofList,
      List.take_of_length_le (Nat.le_succ _)]

/-- Witness for C7: a producer yielding `[0, 1]`, fully consumed, partially
consumed, and replayed. -/
theorem generator_wrapper_lazy_witness :
    (generator_wrapper (fun _ _ => [PyVal.int 0, PyVal.int 1]) [("x", PyVal.none)]
        Option.none Option.none false Option.none 0 [] 3 [PyVal.int 10] []
      = some ([PyVal.int 0, PyVal.int 1],
          Caching.set (wrapper_key [("x", PyVal.none)] Option.none Option.none false
              [PyVal.int 10] [])
            (.list (PyList.ofList [PyVal.int 0, PyVal.int 1])) 0 [], true)) ∧
    (generator_wrapper (fun _ _ => [PyVal.int 0, PyVal.int 1]) [("x", PyVal.none)]
        Option.none Option.none false Option.none 0 [] 1 [PyVal.int 10] []
      = some ([PyVal.int 0], [], true)) ∧
    (generator_wrapper (fun _ _ => [PyVal.int 0, PyVal.int 1]) [("x", PyVal.none)]
        Option.none Option.none false Option.none 1
        (Caching.set (wrapper_key [("x", PyVal.none)] Option.none Option.none false
            [PyVal.int 10] [])
          (.list (PyList.ofList [PyVal.int 0, PyVal.int 1])) 0 []) 3 [PyVal.int 10] []
      = some ([PyVal.int 0, PyVal.int 1],
          Caching.set (wrapper_key [("x", PyVal.none)] Option.none Option.none false
              [PyVal.int 10] [])
            (.list (PyList.ofList [PyVal.int 0, PyVal.int 1])) 0 [], false)) :=
  ⟨(generator_wrapper_lazy (fun _ _ => [PyVal.int 0, PyVal.int 1]) [("x", PyVal.none)]
      Option.none Option.none false 0 1 [] [PyVal.int 10] [] rfl).1,
   (generator_wrapper_lazy (fun _ _ => [PyVal.int 0, PyVal.int 1]) [("x", PyVal.none)]
      Option.none Option.none false 0 1 [] [PyVal.int 10] [] rfl).2.1 1 (by decide)
      (by decide),
   (generator_wrapper_lazy (fun _ _ => [PyVal.int 0, PyVal.int 1]) [("x", PyVal.none)]
      Option.none Option.none false 0 1 [] [PyVal.int 10] [] rfl).2.2⟩
